import Mathlib

/-!
Dispatch layer and hint bridge of `std/math/nonnative/api.go`.

A shallow embedding of the `fakeAPI` adapter: operand normalisation
(`varToElement`, `varsToElements`), the arithmetic dispatch operations, and the
wrapped hint built by `NewHint`.

* A Go panic is an `Except.error` carrying a `Fault`; configuration faults and
  Go runtime panics are distinct constructors.
* The constraint-emitting side of an operation is an explicit list of `Call`s: every
  invocation of an Element method or of the native layer appends one entry.
* The Element methods themselves (`element.go`) are not part of the embedded file;
  they are the fields of `Engine`, the result-construction functions of each method.
* The helpers `recompose` and `decompose` (`composition.go`) are not part of the
  embedded file either; the wrapped hint takes them as a `Composition`, and
  `specComposition` is the pair the specification describes.
-/

namespace Nonnative

/-- Parameter Set `Params`: limb width `nbBits`, limb count `nbLimbs`, modulus `r`. -/
structure Params where
  nbBits : Nat
  nbLimbs : Nat
  r : Nat
deriving DecidableEq, Repr

/-- Modelled from the spec: `Params.isEqual` (absent from the embedded file) is the
structural equality of `limbBits`/`nbLimbs`/`modulus`. -/
def Params.isEqual (p other : Params) : Bool :=
  p.nbBits == other.nbBits && p.nbLimbs == other.nbLimbs && p.r == other.r

/-- A value of the native layer, as held in a limb: a constant, a wire, or the
expression the native layer returns for an arithmetic primitive or a select. -/
inductive Limb where
  | const (v : Int)
  | wire (id : Nat)
  | add (a b : Limb)
  | sub (a b : Limb)
  | mul (a b : Limb)
  | select (c a b : Limb)
deriving DecidableEq, Repr

/-- Emulated Element: limbs (least significant first), overflow, Parameter Set. -/
structure Element where
  Limbs : List Limb
  overflow : Nat
  params : Params
deriving DecidableEq, Repr

/-- The dynamic kinds of a `frontend.Variable` (Go `interface{}`) operand.
`nil` is the nil interface value; references are non-nil; `slice` is a
`[]frontend.Variable`; `native` a value of the native layer; `other` any further
dynamic type (a string, an unsigned integer, ...). -/
inductive Variable where
  | nil
  | element (e : Element)
  | elementPtr (e : Element)
  | bigIntPtr (v : Int)
  | bigInt (v : Int)
  | int (v : Int)
  | slice (vs : List Variable)
  | native (l : Limb)
  | other (tag : Nat)

/-- Panics of the dispatch layer. The first four are the configuration faults raised
by the code (`panic(...)` with a message, and the panic of `ConstantFromBigOrPanic`);
the last two are Go runtime panics. -/
inductive Fault where
  | cannotCast
  | incompatibleParams
  | constantFromBig
  | singleVararg
  | indexOutOfRange
  | sliceBounds
deriving DecidableEq, Repr

/-- Configuration faults, as opposed to runtime panics. -/
def Fault.isConfiguration : Fault → Bool
  | .cannotCast => true
  | .incompatibleParams => true
  | .constantFromBig => true
  | .singleVararg => true
  | .indexOutOfRange => false
  | .sliceBounds => false

/-- The Element methods and Parameter Set factory used by the dispatch layer, bound to
the native API and Parameter Set of one `fakeAPI`. Each method overwrites its receiver
with a result constructed from the operands, so it is given as the function from the
operands to the new receiver. `ConstantFromBig` is `ConstantFromBigOrPanic`, `none`
when it panics. `ToBitsSpare` is the part of the backing array of the slice returned
by `ToBits` that lies past its length (Go allows re-slicing up to the capacity). -/
structure Engine where
  ConstantFromBig : Int → Option Element
  Add : Element → Element → Element
  Sub : Element → Element → Element
  Mul : Element → Element → Element
  Div : Element → Element → Element
  Reduce : Element → Element
  ToBits : Element → List Limb
  ToBitsSpare : Element → List Limb
  Select : Variable → Element → Element → Element
  Lookup2 : Variable → Variable → Element → Element → Element → Element → Element

/-- The adapter `fakeAPI`: the native API (through the Element methods bound to it)
and the Parameter Set. -/
structure fakeAPI where
  api : Engine
  params : Params

/-- Modelled from the spec: `Params.Element` (absent from the embedded file) returns a
zero-initialised Element bound to the Parameter Set. -/
def Params.Element (p : Params) : Element :=
  ⟨List.replicate p.nbLimbs (Limb.const 0), 0, p⟩

/-- Modelled from the spec: `Element.Set` (absent from the embedded file) copies the
limbs and the overflow of the operand into the receiver (a defensive copy). -/
def Element.Set (e a : Element) : Element :=
  { e with Limbs := a.Limbs, overflow := a.overflow }

/-- One invocation of an Element method or of the native layer by the dispatch layer,
with its operands. -/
inductive Call where
  | set (a : Element)
  | add (a b : Element)
  | sub (a b : Element)
  | mul (a b : Element)
  | div (a b : Element)
  | reduce (a : Element)
  | toBits (a : Element)
  | select (b : Variable) (a c : Element)
  | lookup2 (b0 b1 : Variable) (e0 e1 e2 e3 : Element)
  | assertIsEqual (a b : Element)
  | nativeAssertIsBoolean (v : Variable)
  | nativeAssertIsEqual (l : Limb) (c : Int)

/-- What a dispatch operation did: the value it returned or the panic that aborted
it, and the calls it had made up to that point, in order. -/
structure Outcome (α : Type) where
  result : Except Fault α
  calls : List Call

deriving instance DecidableEq for Except

/-- The check at the end of `varToElement`: `f.params.isEqual(e.params)`. -/
def checkParams (f : fakeAPI) (e : Element) : Except Fault Element :=
  if f.params.isEqual e.params then .ok e else .error .incompatibleParams

/-- The constant cases of `varToElement`: `f.params.ConstantFromBigOrPanic(v)`,
followed by the parameter check. -/
def constantToElement (f : fakeAPI) (c : Int) : Except Fault Element :=
  match f.api.ConstantFromBig c with
  | some e => checkParams f e
  | none => .error .constantFromBig

/-- Source `fakeAPI.varToElement`. -/
def varToElement (f : fakeAPI) : Variable → Except Fault Element
  | .element vv => checkParams f vv
  | .elementPtr vv => checkParams f vv
  | .bigIntPtr vv => constantToElement f vv
  | .bigInt vv => constantToElement f vv
  | .int vv => constantToElement f vv
  | _ => .error .cannotCast

mutual
/-- Source `fakeAPI.varsToElements`: the loop over `in`. -/
def varsToElements (f : fakeAPI) : List Variable → Except Fault (List Element)
  | [] => .ok []
  | v :: rest =>
    match varsStep f v with
    | .error e => .error e
    | .ok els =>
      match varsToElements f rest with
      | .error e => .error e
      | .ok more => .ok (els ++ more)
/-- One iteration of the loop of `varsToElements`: the type switch on `in[i]`. A
slice is normalised recursively; a nil interface value matches neither case of the
switch, which has no default, and appends nothing; every other operand goes through
`varToElement`. -/
def varsStep (f : fakeAPI) : Variable → Except Fault (List Element)
  | .slice vs => varsToElements f vs
  | .nil => .ok []
  | v =>
    match varToElement f v with
    | .error e => .error e
    | .ok e => .ok [e]
end

/-- The accumulation loop `for i := 2; i < len(els); i++ { res.Op(res, els[i]) }` of
`Add`, `Sub` and `Mul`: the final accumulator and the calls made. -/
def accumulate (op : Element → Element → Element) (mk : Element → Element → Call) :
    Element → List Element → Element × List Call
  | res, [] => (res, [])
  | res, e :: es =>
    let r := accumulate op mk (op res e) es
    (r.1, mk res e :: r.2)

/-- Source `fakeAPI.Add`. -/
def Add (f : fakeAPI) (i1 i2 : Variable) (rest : List Variable) : Outcome Element :=
  match varsToElements f [i1, i2, .slice rest] with
  | .error e => ⟨.error e, []⟩
  | .ok (e0 :: e1 :: tl) =>
    let r := accumulate f.api.Add Call.add (f.api.Add e0 e1) tl
    ⟨.ok r.1, Call.add e0 e1 :: r.2⟩
  | .ok _ => ⟨.error .indexOutOfRange, []⟩

/-- Source `fakeAPI.Sub`. -/
def Sub (f : fakeAPI) (i1 i2 : Variable) (rest : List Variable) : Outcome Element :=
  match varsToElements f [i1, i2, .slice rest] with
  | .error e => ⟨.error e, []⟩
  | .ok (e0 :: e1 :: tl) =>
    let sub := f.params.Element.Set e1
    let r := accumulate f.api.Add Call.add sub tl
    ⟨.ok (f.api.Sub e0 r.1), Call.set e1 :: r.2 ++ [Call.sub e0 r.1]⟩
  | .ok _ => ⟨.error .indexOutOfRange, []⟩

/-- Source `fakeAPI.Mul`. -/
def Mul (f : fakeAPI) (i1 i2 : Variable) (rest : List Variable) : Outcome Element :=
  match varsToElements f [i1, i2, .slice rest] with
  | .error e => ⟨.error e, []⟩
  | .ok (e0 :: e1 :: tl) =>
    let r := accumulate f.api.Mul Call.mul (f.api.Mul e0 e1) tl
    ⟨.ok r.1, Call.mul e0 e1 :: r.2⟩
  | .ok _ => ⟨.error .indexOutOfRange, []⟩

/-- Source `fakeAPI.Div`. -/
def Div (f : fakeAPI) (i1 i2 : Variable) : Outcome Element :=
  match varsToElements f [i1, i2] with
  | .error e => ⟨.error e, []⟩
  | .ok (e0 :: e1 :: _) => ⟨.ok (f.api.Div e0 e1), [Call.div e0 e1]⟩
  | .ok _ => ⟨.error .indexOutOfRange, []⟩

/-- Source `fakeAPI.ToBinary`; `n` is the variadic tail. The re-slicing `out[:n[0]]`
panics for a negative bound and for a bound past the capacity of `out`. -/
def ToBinary (f : fakeAPI) (i1 : Variable) (n : List Int) : Outcome (List Limb) :=
  match varToElement f i1 with
  | .error e => ⟨.error e, []⟩
  | .ok el =>
    let res := f.api.Reduce el
    let out := f.api.ToBits res
    let calls := [Call.reduce el, Call.toBits res]
    match n with
    | [] => ⟨.ok out, calls⟩
    | [n0] =>
      if 0 ≤ n0 ∧ n0.toNat ≤ out.length + (f.api.ToBitsSpare res).length then
        ⟨.ok ((out ++ f.api.ToBitsSpare res).take n0.toNat), calls⟩
      else ⟨.error .sliceBounds, calls⟩
    | _ => ⟨.error .singleVararg, calls⟩

/-- The test `s.overflow != 0 || len(s.Limbs) != int(f.params.nbLimbs)` of `Select`
and the reduction it guards: the element handed on, and the call made if any. -/
def reduceIfNeeded (f : fakeAPI) (s : Element) : Element × List Call :=
  if s.overflow ≠ 0 ∨ s.Limbs.length ≠ f.params.nbLimbs then
    (f.api.Reduce s, [Call.reduce s])
  else (s, [])

/-- Source `fakeAPI.Select`. -/
def Select (f : fakeAPI) (b i1 i2 : Variable) : Outcome Element :=
  match varsToElements f [i1, i2] with
  | .error e => ⟨.error e, []⟩
  | .ok (e0 :: e1 :: _) =>
    if e0.overflow = e1.overflow ∧ e0.Limbs.length = e1.Limbs.length then
      ⟨.ok (f.api.Select b e0 e1), [Call.select b e0 e1]⟩
    else
      let s1 := reduceIfNeeded f e0
      let s2 := reduceIfNeeded f e1
      ⟨.ok (f.api.Select b s1.1 s2.1), s1.2 ++ s2.2 ++ [Call.select b s1.1 s2.1]⟩
  | .ok _ => ⟨.error .indexOutOfRange, []⟩

/-- Source `fakeAPI.Lookup2`. -/
def Lookup2 (f : fakeAPI) (b0 b1 i0 i1 i2 i3 : Variable) : Outcome Element :=
  match varsToElements f [i0, i1, i2, i3] with
  | .error e => ⟨.error e, []⟩
  | .ok (e0 :: e1 :: e2 :: e3 :: _) =>
    ⟨.ok (f.api.Lookup2 b0 b1 e0 e1 e2 e3), [Call.lookup2 b0 b1 e0 e1 e2 e3]⟩
  | .ok _ => ⟨.error .indexOutOfRange, []⟩

/-- Source `fakeAPI.AssertIsEqual`. -/
def AssertIsEqual (f : fakeAPI) (i1 i2 : Variable) : Outcome Unit :=
  match varsToElements f [i1, i2] with
  | .error e => ⟨.error e, []⟩
  | .ok [] => ⟨.error .indexOutOfRange, []⟩
  | .ok [e0] => ⟨.error .indexOutOfRange, [Call.set e0]⟩
  | .ok (e0 :: e1 :: _) =>
    let tmp := f.params.Element.Set e0
    ⟨.ok (), [Call.set e0, Call.assertIsEqual tmp e1]⟩

/-- The Element cases of `AssertIsBoolean`: reduce, assert limb 0 boolean, assert
every further limb equal to 0. -/
def assertElementIsBoolean (f : fakeAPI) (vv : Element) : Outcome Unit :=
  let v := f.api.Reduce vv
  match v.Limbs with
  | [] => ⟨.error .indexOutOfRange, [Call.reduce vv]⟩
  | l0 :: ls =>
    ⟨.ok (), Call.reduce vv :: Call.nativeAssertIsBoolean (.native l0) ::
      ls.map (fun l => Call.nativeAssertIsEqual l 0)⟩

/-- Source `fakeAPI.AssertIsBoolean`. -/
def AssertIsBoolean (f : fakeAPI) : Variable → Outcome Unit
  | .element vv => assertElementIsBoolean f vv
  | .elementPtr vv => assertElementIsBoolean f vv
  | vv => ⟨.ok (), [Call.nativeAssertIsBoolean vv]⟩

/-! Section: Hint bridge. -/

/-- The record `typedInput` of `NewHint`: offset and width of one operand in the
expanded input list, and whether it is an Element. -/
structure typedInput where
  pos : Nat
  nbLimbs : Nat
  isElement : Bool
deriving DecidableEq, Repr

/-- The first loop of `NewHint`, started with `expandedInputs = expanded`: the final
`expandedInputs` and the `typedInputs` of the operands. -/
def expandInputs : List Variable → List Variable → List Variable × List typedInput
  | expanded, [] => (expanded, [])
  | expanded, .element vv :: rest =>
    let expanded1 := expanded ++ vv.Limbs.map Variable.native
    let r := expandInputs expanded1 rest
    (r.1, ⟨expanded1.length - vv.Limbs.length, vv.Limbs.length, true⟩ :: r.2)
  | expanded, .elementPtr vv :: rest =>
    let expanded1 := expanded ++ vv.Limbs.map Variable.native
    let r := expandInputs expanded1 rest
    (r.1, ⟨expanded1.length - vv.Limbs.length, vv.Limbs.length, true⟩ :: r.2)
  | expanded, v :: rest =>
    let expanded1 := expanded ++ [v]
    let r := expandInputs expanded1 rest
    (r.1, ⟨expanded1.length - 1, 1, false⟩ :: r.2)

/-- A hint function on big integers (`*big.Int`, signed): the values it leaves in its
outputs, or its error. -/
abbrev HintFunction := List Int → Except String (List Int)

/-- The helpers `recompose` and `decompose` (`composition.go`, absent from the
embedded file) as used by the wrapped hint: `recompose inputs nbBits` and
`decompose input nbBits (len res)`, each returning its result or its error. -/
structure Composition where
  recompose : List Int → Nat → Except String Int
  decompose : Int → Nat → Nat → Except String (List Int)

/-- How a run of the wrapped hint ends other than with `nil`: one of its three error
returns, or a Go runtime panic on an expanded input vector that is too short. -/
inductive HintFault where
  | recompose (msg : String)
  | callHint (msg : String)
  | decompose (msg : String)
  | indexOutOfRange
  | sliceBounds
deriving DecidableEq, Repr

/-- The first loop of the wrapped hint: the big-integer inputs of `hf`, one per
operand, from the expanded inputs. -/
def recomposeInputs (C : Composition) (nbBits : Nat) (expandedHintInputs : List Int) :
    List typedInput → Except HintFault (List Int)
  | [] => .ok []
  | ti :: rest =>
    if ti.isElement then
      if ti.pos + ti.nbLimbs ≤ expandedHintInputs.length then
        match C.recompose ((expandedHintInputs.drop ti.pos).take ti.nbLimbs) nbBits with
        | .error msg => .error (.recompose msg)
        | .ok v =>
          match recomposeInputs C nbBits expandedHintInputs rest with
          | .error e => .error e
          | .ok vs => .ok (v :: vs)
      else .error .sliceBounds
    else
      match expandedHintInputs.get? ti.pos with
      | none => .error .indexOutOfRange
      | some v =>
        match recomposeInputs C nbBits expandedHintInputs rest with
        | .error e => .error e
        | .ok vs => .ok (v :: vs)

/-- The last loop of the wrapped hint: each output is decomposed into its block of
`nbLimbs` expanded outputs. -/
def decomposeOutputs (C : Composition) (nbBits nbLimbs : Nat) :
    List Int → Except HintFault (List Int)
  | [] => .ok []
  | o :: rest =>
    match C.decompose o nbBits nbLimbs with
    | .error msg => .error (.decompose msg)
    | .ok limbs =>
      match decomposeOutputs C nbBits nbLimbs rest with
      | .error e => .error e
      | .ok more => .ok (limbs ++ more)

/-- The slice `hintOutputs` after the call of `hf`: `nbOutputs` big integers, zero
where `hf` left none. -/
def hintOutputs (nbOutputs : Nat) (outs : List Int) : List Int :=
  (List.range nbOutputs).map (fun i => outs.getD i 0)

/-- A run of the wrapped hint: the expanded outputs or the fault, and the inputs of
each invocation of `hf`, in order. -/
structure HintRun where
  result : Except HintFault (List Int)
  invocations : List (List Int)

/-- Source `wrappedHint`, the closure built by `NewHint` over `hf`, `nbOutputs`,
`typedInputs` and `f.params`. -/
def wrappedHint (C : Composition) (p : Params) (hf : HintFunction) (nbOutputs : Nat)
    (typedInputs : List typedInput) (expandedHintInputs : List Int) : HintRun :=
  match recomposeInputs C p.nbBits expandedHintInputs typedInputs with
  | .error e => ⟨.error e, []⟩
  | .ok hintInputs =>
    match hf hintInputs with
    | .error msg => ⟨.error (.callHint msg), [hintInputs]⟩
    | .ok outs =>
      ⟨decomposeOutputs C p.nbBits p.nbLimbs (hintOutputs nbOutputs outs), [hintInputs]⟩

/-- Modelled from the spec: the value of a limb vector, `Σ limb[i] * 2^(i*limbBits)`. -/
def limbsValue (limbs : List Nat) (nbBits : Nat) : Nat :=
  ((List.range limbs.length).map (fun i => limbs.getD i 0 * 2 ^ (i * nbBits))).sum

/-- Modelled from the spec: the big integer `Σ limb[i] * 2^(i*limbBits)` of a vector of
big-integer limbs. -/
def limbsSum (limbs : List Int) (nbBits : Nat) : Int :=
  ((List.range limbs.length).map
    (fun i => limbs.getD i 0 * ((2 ^ (i * nbBits) : Nat) : Int))).sum

/-- Modelled from the spec: `recompose` (absent from the embedded file) combines the
limbs into `Σ limb[i] * 2^(i*limbBits)`. -/
def recompose (inputs : List Int) (nbBits : Nat) : Except String Int :=
  .ok (limbsSum inputs nbBits)

/-- Halving until zero, at most `fuel` times: the number of halvings. -/
def bitLenAux : Nat → Nat → Nat
  | 0, _ => 0
  | fuel + 1, v => if v = 0 then 0 else bitLenAux fuel (v / 2) + 1

/-- The number of bits a big integer needs: the length of its binary notation, 0 for
0. -/
def bitLen (v : Nat) : Nat := bitLenAux v v

/-- Modelled from the spec: `decompose` (absent from the embedded file) splits the
input into exactly `nbLimbs` limbs of width `nbBits`, and fails if the input needs
more than `nbLimbs*nbBits` bits. The bits a signed big integer needs are those of its
magnitude (`big.Int.BitLen`); limb `i` is the residue modulo `2^nbBits`, in
`[0, 2^nbBits)`, of the input shifted right by `i*nbBits` bits (floor division), so
that a negative input within the bit bound comes out in wrapped-around limbs. -/
def decompose (input : Int) (nbBits nbLimbs : Nat) : Except String (List Int) :=
  if nbLimbs * nbBits < bitLen input.natAbs then
    .error "decomposed integer does not fit into res"
  else .ok ((List.range nbLimbs).map
    (fun i => input / ((2 ^ (i * nbBits) : Nat) : Int) % ((2 ^ nbBits : Nat) : Int)))

/-- The helpers as the spec describes them. -/
def specComposition : Composition := ⟨recompose, decompose⟩

/-- The big integer the wrapped hint is to hand to `hf` for one operand, under a
valuation of the expanded inputs: the recomposition of the limbs of an Element, the
value itself of any other operand. -/
def operandValue (val : Variable → Int) (nbBits : Nat) : Variable → Int
  | .element vv => limbsSum (vv.Limbs.map (fun l => val (.native l))) nbBits
  | .elementPtr vv => limbsSum (vv.Limbs.map (fun l => val (.native l))) nbBits
  | v => val v

/-- The expanded inputs one operand contributes: the limbs of an Element, in order, or
the operand itself. -/
def operandExpansion : Variable → List Variable
  | .element vv => vv.Limbs.map Variable.native
  | .elementPtr vv => vv.Limbs.map Variable.native
  | v => [v]

/-- The slice `expandedHintInputs[ti.pos:ti.pos+ti.nbLimbs]` the wrapped hint hands to
`recompose` for an Element input. -/
def inputBlock (expandedHintInputs : List Int) (ti : typedInput) : List Int :=
  (expandedHintInputs.drop ti.pos).take ti.nbLimbs

/-! Section: A sample Engine. -/

/-- Limb-wise combination of two limb vectors; the result has the length of the
longer one, the shorter one being continued with zero limbs. -/
def zipLimbs (op : Limb → Limb → Limb) : List Limb → List Limb → List Limb
  | [], bs => bs.map (op (Limb.const 0))
  | a :: as, [] => op a (Limb.const 0) :: zipLimbs op as []
  | a :: as, b :: bs => op a b :: zipLimbs op as bs

/-- Schoolbook convolution: limb `i` of the product is `Σ a[j]*b[i-j]`. -/
def convolve (a b : List Limb) : List Limb :=
  (List.range (a.length + b.length - 1)).map (fun i =>
    (List.range (i + 1)).foldl (fun acc j =>
      if j < a.length ∧ i - j < b.length then
        Limb.add acc (Limb.mul (a.getD j (Limb.const 0)) (b.getD (i - j) (Limb.const 0)))
      else acc) (Limb.const 0))

/-- Modelled from the spec: an Engine over symbolic native values, with the limb counts
and overflows of section 4.2: `Add` is limb-wise with overflow `max + 1`; `Sub` is
limb-wise (the padding multiple of the modulus left out of the symbolic limb) with
the overflow grown by 2; `Mul` is the convolution; `Reduce` and `Div` return a
canonical Element of hint wires; constants have exactly `nbLimbs` limbs. -/
def sampleEngine (p : Params) : Engine where
  ConstantFromBig v :=
    if 0 ≤ v ∧ v < 2 ^ (p.nbLimbs * p.nbBits) then
      some ⟨(List.range p.nbLimbs).map
        (fun i => Limb.const (v / 2 ^ (i * p.nbBits) % 2 ^ p.nbBits)), 0, p⟩
    else none
  Add a b := ⟨zipLimbs Limb.add a.Limbs b.Limbs, max a.overflow b.overflow + 1, p⟩
  Sub a b := ⟨zipLimbs Limb.sub a.Limbs b.Limbs, max a.overflow b.overflow + 2, p⟩
  Mul a b := ⟨convolve a.Limbs b.Limbs,
    a.overflow + b.overflow + p.nbBits + Nat.clog 2 (min a.Limbs.length b.Limbs.length), p⟩
  Div _ _ := ⟨(List.range p.nbLimbs).map Limb.wire, 0, p⟩
  Reduce _ := ⟨(List.range p.nbLimbs).map Limb.wire, 0, p⟩
  ToBits a := (List.range (a.Limbs.length * p.nbBits)).map (fun i => Limb.wire (1000 + i))
  ToBitsSpare _ := []
  Select b a c :=
    match b with
    | .native l => ⟨zipLimbs (Limb.select l) a.Limbs c.Limbs, a.overflow, p⟩
    | _ => ⟨zipLimbs (Limb.select (Limb.const 0)) a.Limbs c.Limbs, a.overflow, p⟩
  Lookup2 _ _ e0 _ _ _ := e0

/-- Sample Parameter Set: 2 limbs of 4 bits, modulus 23. -/
def sampleParams : Params := ⟨4, 2, 23⟩

/-- Sample adapter over the sample Engine and Parameter Set. -/
def sampleAPI : fakeAPI := ⟨sampleEngine sampleParams, sampleParams⟩

/-- Sample canonical Element of the sample Parameter Set with wire limbs `i`, `i+1`. -/
def sampleElement (i : Nat) : Element := ⟨[Limb.wire i, Limb.wire (i + 1)], 0, sampleParams⟩

/-- Sample Element of another Parameter Set (3 limbs, modulus 4093). -/
def foreignElement : Element :=
  ⟨[Limb.wire 7, Limb.wire 8, Limb.wire 9], 0, ⟨4, 3, 4093⟩⟩

/-- The sample hint function `(x, y) → (x/y, x mod y)`. -/
def divModHint : HintFunction
  | [x, y] => if y = 0 then .error "division by zero" else .ok [x / y, x % y]
  | _ => .error "expecting two inputs"

/-- Sample values of the native wires: wires 1, 2 hold the limbs of 17 and wires 3, 4
the limbs of 5 (limbs of 4 bits). -/
def sampleValuation : Variable → Nat
  | .native (.wire 1) => 1
  | .native (.wire 2) => 1
  | .native (.wire 3) => 5
  | _ => 0

/-- The sample values of the native wires as big integers handed to the wrapped
hint. -/
def sampleValues (v : Variable) : Int := (sampleValuation v : Int)

/-- A sample hint function that returns the product of its two inputs. -/
def mulHint : HintFunction
  | [x, y] => .ok [x * y]
  | _ => .error "expecting two inputs"

/-- A sample hint function that returns the difference `x - y` of its two inputs. -/
def subHint : HintFunction
  | [x, y] => .ok [x - y]
  | _ => .error "expecting two inputs"

/-! Section: Vocabulary of the statements. -/

/-- An operand is an Emulated Element (by value or by reference) whose Parameter Set is
not equal to that of the dispatch layer. -/
def isForeignElement (f : fakeAPI) : Variable → Bool
  | .element e => !f.params.isEqual e.params
  | .elementPtr e => !f.params.isEqual e.params
  | _ => false

/-- The integer a symbolic native value stands for, given the values of the wires. -/
def Limb.eval (env : Nat → Int) : Limb → Int
  | .const v => v
  | .wire id => env id
  | .add a b => a.eval env + b.eval env
  | .sub a b => a.eval env - b.eval env
  | .mul a b => a.eval env * b.eval env
  | .select c a b => if c.eval env = 0 then b.eval env else a.eval env

/-- The integer a vector of symbolic limbs of width `nbBits` stands for, given the
values of the wires: limb `i` weighs `2^(i*nbBits)`. -/
def symbolicValue (env : Nat → Int) (nbBits : Nat) : List Limb → Int
  | [] => 0
  | l :: ls => l.eval env + 2 ^ nbBits * symbolicValue env nbBits ls

/-- Sample values of the wires for `Limb.eval`: wire `i` holds `i`. -/
def sampleWires (i : Nat) : Int := i

/-- The call is an invocation of the Engine's subtraction. -/
def Call.isSub : Call → Bool
  | .sub _ _ => true
  | _ => false

/-- The call is an invocation of the Engine's addition. -/
def Call.isAdd : Call → Bool
  | .add _ _ => true
  | _ => false

/-- The call is an invocation of the Engine's multiplication. -/
def Call.isMul : Call → Bool
  | .mul _ _ => true
  | _ => false

/-- The test of `Select` for an element that needs no reduction: overflow 0 and exactly
`nbLimbs` limbs. -/
def isCanonicalShape (f : fakeAPI) (s : Element) : Bool :=
  s.overflow == 0 && s.Limbs.length == f.params.nbLimbs

/-- A native assertion emitted by the dispatch layer holds under a valuation of the
native values: the boolean assertion when the value is 0 or 1, the equality with a
constant when the value is that constant. Calls of Element methods are no native
assertion of the dispatch layer and put no condition here. -/
def nativeAssertionHolds (val : Variable → Nat) : Call → Bool
  | .nativeAssertIsBoolean v => val v == 0 || val v == 1
  | .nativeAssertIsEqual l c => (val (.native l) : Int) == c
  | _ => true

/-! Section: Normalisation. -/

theorem isEqual_iff (p q : Params) : p.isEqual q = true ↔ p = q := by
  cases p; cases q
  simp [Params.isEqual, and_assoc]

theorem checkParams_error (f : fakeAPI) (e : Element) (x : Fault)
    (h : checkParams f e = .error x) : x = .incompatibleParams := by
  unfold checkParams at h
  split at h
  · cases h
  · cases h; rfl

theorem varToElement_error_config (f : fakeAPI) (v : Variable) (x : Fault)
    (h : varToElement f v = .error x) : x.isConfiguration = true := by
  have hc : ∀ c, constantToElement f c = .error x → x.isConfiguration = true := by
    intro c hc
    unfold constantToElement at hc
    split at hc
    · rw [checkParams_error f _ x hc]; rfl
    · cases hc; rfl
  cases v <;> simp only [varToElement] at h
  case element e => rw [checkParams_error f e x h]; rfl
  case elementPtr e => rw [checkParams_error f e x h]; rfl
  case bigIntPtr c => exact hc c h
  case bigInt c => exact hc c h
  case int c => exact hc c h
  all_goals (cases h; rfl)

mutual
theorem varsToElements_error_config (f : fakeAPI) :
    ∀ (vs : List Variable) (x : Fault), varsToElements f vs = .error x →
      x.isConfiguration = true
  | [], x, h => by simp [varsToElements] at h
  | v :: rest, x, h => by
    rw [varsToElements] at h
    cases hs : varsStep f v with
    | error e =>
      rw [hs] at h
      cases h
      exact varsStep_error_config f v x hs
    | ok els =>
      rw [hs] at h
      cases hr : varsToElements f rest with
      | error e =>
        rw [hr] at h
        cases h
        exact varsToElements_error_config f rest x hr
      | ok more => rw [hr] at h; cases h
theorem varsStep_error_config (f : fakeAPI) :
    ∀ (v : Variable) (x : Fault), varsStep f v = .error x → x.isConfiguration = true
  | .slice vs, x, h => by
    rw [varsStep] at h
    exact varsToElements_error_config f vs x h
  | .nil, x, h => by simp [varsStep] at h
  | .element e, x, h => by
    simp only [varsStep] at h
    split at h
    · rename_i y hy; cases h; exact varToElement_error_config f _ x hy
    · cases h
  | .elementPtr e, x, h => by
    simp only [varsStep] at h
    split at h
    · rename_i y hy; cases h; exact varToElement_error_config f _ x hy
    · cases h
  | .bigIntPtr e, x, h => by
    simp only [varsStep] at h
    split at h
    · rename_i y hy; cases h; exact varToElement_error_config f _ x hy
    · cases h
  | .bigInt e, x, h => by
    simp only [varsStep] at h
    split at h
    · rename_i y hy; cases h; exact varToElement_error_config f _ x hy
    · cases h
  | .int e, x, h => by
    simp only [varsStep] at h
    split at h
    · rename_i y hy; cases h; exact varToElement_error_config f _ x hy
    · cases h
  | .native e, x, h => by
    simp only [varsStep] at h
    split at h
    · rename_i y hy; cases h; exact varToElement_error_config f _ x hy
    · cases h
  | .other e, x, h => by
    simp only [varsStep] at h
    split at h
    · rename_i y hy; cases h; exact varToElement_error_config f _ x hy
    · cases h
end

theorem varsToElements_variadic (f : fakeAPI) (i1 i2 : Variable) (rest : List Variable) :
    varsToElements f [i1, i2, .slice rest] = varsToElements f (i1 :: i2 :: rest) := by
  simp only [varsToElements, varsStep]
  cases varsStep f i1 <;> cases varsStep f i2 <;> cases varsToElements f rest <;> simp

theorem varsStep_foreign (f : fakeAPI) (v : Variable) (h : isForeignElement f v = true) :
    varsStep f v = .error .incompatibleParams := by
  cases v <;> simp [isForeignElement] at h <;>
    simp [varsStep, varToElement, checkParams, h]

theorem varsToElements_faulty_operand (f : fakeAPI) :
    ∀ vs : List Variable, (∃ v ∈ vs, ∃ y : Fault, varsStep f v = .error y) →
      ∃ x : Fault, x.isConfiguration = true ∧ varsToElements f vs = .error x
  | [], h => by simp at h
  | v :: rest, h => by
    rw [varsToElements]
    cases hs : varsStep f v with
    | error e => exact ⟨e, varsStep_error_config f v e hs, rfl⟩
    | ok els =>
      obtain ⟨w, hw, y, hy⟩ := h
      rcases List.mem_cons.mp hw with rfl | hw
      · rw [hy] at hs; cases hs
      · obtain ⟨x, hx, hr⟩ := varsToElements_faulty_operand f rest ⟨w, hw, y, hy⟩
        exact ⟨x, hx, by simp [hr]⟩

theorem varsToElements_foreign (f : fakeAPI) (vs : List Variable)
    (h : ∃ v ∈ vs, isForeignElement f v = true) :
    ∃ x : Fault, x.isConfiguration = true ∧ varsToElements f vs = .error x := by
  obtain ⟨v, hv, hf⟩ := h
  exact varsToElements_faulty_operand f vs ⟨v, hv, _, varsStep_foreign f v hf⟩

/-- An operand list with a native-layer value or a value of a further dynamic type
among its operands is rejected by `varsToElements` with a configuration fault. -/
theorem varsToElements_rejects_unsupported (f : fakeAPI) (vs : List Variable)
    (h : ∃ v ∈ vs, (∃ l, v = .native l) ∨ (∃ t, v = .other t)) :
    ∃ x : Fault, x.isConfiguration = true ∧ varsToElements f vs = .error x := by
  obtain ⟨v, hv, hk⟩ := h
  refine varsToElements_faulty_operand f vs ⟨v, hv, .cannotCast, ?_⟩
  rcases hk with ⟨l, rfl⟩ | ⟨t, rfl⟩ <;> rfl

/-- C1: each of the dispatch operations Add, Sub, Mul, Div, Select, Lookup2 and
AssertIsEqual, called with an operand list in which some operand is an Emulated
Element (by value or by reference) whose Parameter Set is not equal to that of the
dispatch layer, aborts with a configuration fault and has made no call of an Element
method or of the native layer. -/
theorem dispatch_aborts_on_foreign_element (f : fakeAPI) :
    (∀ i1 i2 rest, (∃ v ∈ i1 :: i2 :: rest, isForeignElement f v = true) →
      ∃ x : Fault, x.isConfiguration = true ∧ Add f i1 i2 rest = ⟨.error x, []⟩) ∧
    (∀ i1 i2 rest, (∃ v ∈ i1 :: i2 :: rest, isForeignElement f v = true) →
      ∃ x : Fault, x.isConfiguration = true ∧ Sub f i1 i2 rest = ⟨.error x, []⟩) ∧
    (∀ i1 i2 rest, (∃ v ∈ i1 :: i2 :: rest, isForeignElement f v = true) →
      ∃ x : Fault, x.isConfiguration = true ∧ Mul f i1 i2 rest = ⟨.error x, []⟩) ∧
    (∀ i1 i2, (∃ v ∈ [i1, i2], isForeignElement f v = true) →
      ∃ x : Fault, x.isConfiguration = true ∧ Div f i1 i2 = ⟨.error x, []⟩) ∧
    (∀ b i1 i2, (∃ v ∈ [i1, i2], isForeignElement f v = true) →
      ∃ x : Fault, x.isConfiguration = true ∧ Select f b i1 i2 = ⟨.error x, []⟩) ∧
    (∀ b0 b1 i0 i1 i2 i3, (∃ v ∈ [i0, i1, i2, i3], isForeignElement f v = true) →
      ∃ x : Fault, x.isConfiguration = true ∧
        Lookup2 f b0 b1 i0 i1 i2 i3 = ⟨.error x, []⟩) ∧
    (∀ i1 i2, (∃ v ∈ [i1, i2], isForeignElement f v = true) →
      ∃ x : Fault, x.isConfiguration = true ∧ AssertIsEqual f i1 i2 = ⟨.error x, []⟩) := by
  refine ⟨?_, ?_, ?_, ?_, ?_, ?_, ?_⟩
  · intro i1 i2 rest h
    obtain ⟨x, hx, hv⟩ := varsToElements_foreign f _ h
    rw [← varsToElements_variadic] at hv
    exact ⟨x, hx, by simp [Add, hv]⟩
  · intro i1 i2 rest h
    obtain ⟨x, hx, hv⟩ := varsToElements_foreign f _ h
    rw [← varsToElements_variadic] at hv
    exact ⟨x, hx, by simp [Sub, hv]⟩
  · intro i1 i2 rest h
    obtain ⟨x, hx, hv⟩ := varsToElements_foreign f _ h
    rw [← varsToElements_variadic] at hv
    exact ⟨x, hx, by simp [Mul, hv]⟩
  · intro i1 i2 h
    obtain ⟨x, hx, hv⟩ := varsToElements_foreign f _ h
    exact ⟨x, hx, by simp [Div, hv]⟩
  · intro b i1 i2 h
    obtain ⟨x, hx, hv⟩ := varsToElements_foreign f _ h
    exact ⟨x, hx, by simp [Select, hv]⟩
  · intro b0 b1 i0 i1 i2 i3 h
    obtain ⟨x, hx, hv⟩ := varsToElements_foreign f _ h
    exact ⟨x, hx, by simp [Lookup2, hv]⟩
  · intro i1 i2 h
    obtain ⟨x, hx, hv⟩ := varsToElements_foreign f _ h
    exact ⟨x, hx, by simp [AssertIsEqual, hv]⟩

/-- C1, at a concrete input: adding a sample Element and a reference to an Element of
another Parameter Set aborts with a configuration fault before any call. -/
theorem dispatch_aborts_on_foreign_element_witness :
    ∃ x : Fault, x.isConfiguration = true ∧
      Add sampleAPI (.element (sampleElement 1)) (.elementPtr foreignElement) [] =
        ⟨.error x, []⟩ :=
  (dispatch_aborts_on_foreign_element sampleAPI).1 _ _ _
    ⟨.elementPtr foreignElement, by simp, by decide⟩

/-- C9, the code at the failing input: `varToElement` rejects the nil operand, while
`varsToElements` drops it from the operand list without a fault, so that `Add` of a
nil operand and two Elements returns the sum of the two Elements. -/
theorem varsToElements_drops_nil :
    varToElement sampleAPI .nil = .error .cannotCast ∧
    varsToElements sampleAPI [.nil] = .ok [] ∧
    varsToElements sampleAPI [.element (sampleElement 1), .slice [.nil, .element (sampleElement 3)]]
      = .ok [sampleElement 1, sampleElement 3] ∧
    (Add sampleAPI .nil (.element (sampleElement 1)) [.element (sampleElement 3)]).result
      = .ok (sampleAPI.api.Add (sampleElement 1) (sampleElement 3)) := by
  refine ⟨rfl, rfl, rfl, rfl⟩

/-! Section: Variadic folds. -/

theorem accumulate_fst (op : Element → Element → Element) (mk : Element → Element → Call) :
    ∀ (es : List Element) (res : Element), (accumulate op mk res es).1 = es.foldl op res
  | [], res => rfl
  | e :: es, res => by
    simp only [accumulate, List.foldl_cons]
    exact accumulate_fst op mk es (op res e)

theorem accumulate_snd (op : Element → Element → Element) (mk : Element → Element → Call) :
    ∀ (es : List Element) (res : Element),
      (accumulate op mk res es).2 = List.zipWith mk (List.scanl op res es) es
  | [], res => rfl
  | e :: es, res => by
    simp only [accumulate, List.scanl_cons, List.singleton_append, List.zipWith_cons_cons]
    rw [accumulate_snd op mk es (op res e)]

mutual
theorem varsToElements_params (f : fakeAPI) :
    ∀ (vs : List Variable) (es : List Element), varsToElements f vs = .ok es →
      ∀ e ∈ es, e.params = f.params
  | [], es, h => by
    simp only [varsToElements, Except.ok.injEq] at h
    subst h
    simp
  | v :: rest, es, h => by
    rw [varsToElements] at h
    cases hs : varsStep f v with
    | error x => rw [hs] at h; cases h
    | ok els =>
      rw [hs] at h
      cases hr : varsToElements f rest with
      | error x => rw [hr] at h; cases h
      | ok more =>
        rw [hr] at h
        simp only [Except.ok.injEq] at h
        subst h
        intro e he
        rcases List.mem_append.mp he with he | he
        · exact varsStep_params f v els hs e he
        · exact varsToElements_params f rest more hr e he
theorem varsStep_params (f : fakeAPI) :
    ∀ (v : Variable) (es : List Element), varsStep f v = .ok es →
      ∀ e ∈ es, e.params = f.params
  | .slice vs, es, h => by
    rw [varsStep] at h
    exact varsToElements_params f vs es h
  | .nil, es, h => by
    simp only [varsStep, Except.ok.injEq] at h
    subst h
    simp
  | .element a, es, h => by
    simp only [varsStep, varToElement, checkParams] at h
    split at h
    · cases h
    · rename_i y hy
      split at hy
      · rename_i hp
        cases hy; cases h
        simp [((isEqual_iff _ _).mp hp).symm]
      · cases hy
  | .elementPtr a, es, h => by
    simp only [varsStep, varToElement, checkParams] at h
    split at h
    · cases h
    · rename_i y hy
      split at hy
      · rename_i hp
        cases hy; cases h
        simp [((isEqual_iff _ _).mp hp).symm]
      · cases hy
  | .bigIntPtr c, es, h => by
    simp only [varsStep, varToElement, constantToElement, checkParams] at h
    split at h
    · cases h
    · rename_i y hy
      split at hy
      · split at hy
        · rename_i hp
          cases hy; cases h
          simp [((isEqual_iff _ _).mp hp).symm]
        · cases hy
      · cases hy
  | .bigInt c, es, h => by
    simp only [varsStep, varToElement, constantToElement, checkParams] at h
    split at h
    · cases h
    · rename_i y hy
      split at hy
      · split at hy
        · rename_i hp
          cases hy; cases h
          simp [((isEqual_iff _ _).mp hp).symm]
        · cases hy
      · cases hy
  | .int c, es, h => by
    simp only [varsStep, varToElement, constantToElement, checkParams] at h
    split at h
    · cases h
    · rename_i y hy
      split at hy
      · split at hy
        · rename_i hp
          cases hy; cases h
          simp [((isEqual_iff _ _).mp hp).symm]
        · cases hy
      · cases hy
  | .native l, es, h => by simp [varsStep, varToElement] at h
  | .other t, es, h => by simp [varsStep, varToElement] at h
end

theorem set_copy (f : fakeAPI) (e : Element) (h : e.params = f.params) :
    f.params.Element.Set e = e := by
  cases e
  simp only [Element.Set, Params.Element] at *
  simp [h]

/-- C4: when the operands `i1, i2, rest...` normalise to `e0, e1, tl...` (n Elements),
the dispatch `Add` returns the left fold of the Engine's `Add` over them, making
exactly n-1 calls of the Engine's `Add`, one per step of the fold in operand order;
likewise the dispatch `Mul` for the Engine's `Mul`. -/
theorem add_mul_left_fold (f : fakeAPI) (i1 i2 : Variable) (rest : List Variable)
    (e0 e1 : Element) (tl : List Element)
    (h : varsToElements f (i1 :: i2 :: rest) = .ok (e0 :: e1 :: tl)) :
    (Add f i1 i2 rest =
      ⟨.ok (tl.foldl f.api.Add (f.api.Add e0 e1)),
        Call.add e0 e1 :: List.zipWith Call.add (List.scanl f.api.Add (f.api.Add e0 e1) tl) tl⟩ ∧
      (Add f i1 i2 rest).calls.length = (e0 :: e1 :: tl).length - 1 ∧
      ∀ c ∈ (Add f i1 i2 rest).calls, c.isAdd = true) ∧
    (Mul f i1 i2 rest =
      ⟨.ok (tl.foldl f.api.Mul (f.api.Mul e0 e1)),
        Call.mul e0 e1 :: List.zipWith Call.mul (List.scanl f.api.Mul (f.api.Mul e0 e1) tl) tl⟩ ∧
      (Mul f i1 i2 rest).calls.length = (e0 :: e1 :: tl).length - 1 ∧
      ∀ c ∈ (Mul f i1 i2 rest).calls, c.isMul = true) := by
  rw [← varsToElements_variadic] at h
  have hA : Add f i1 i2 rest =
      ⟨.ok (tl.foldl f.api.Add (f.api.Add e0 e1)),
        Call.add e0 e1 :: List.zipWith Call.add (List.scanl f.api.Add (f.api.Add e0 e1) tl) tl⟩ := by
    simp only [Add, h, accumulate_fst, accumulate_snd]
  have hM : Mul f i1 i2 rest =
      ⟨.ok (tl.foldl f.api.Mul (f.api.Mul e0 e1)),
        Call.mul e0 e1 :: List.zipWith Call.mul (List.scanl f.api.Mul (f.api.Mul e0 e1) tl) tl⟩ := by
    simp only [Mul, h, accumulate_fst, accumulate_snd]
  refine ⟨⟨hA, ?_, ?_⟩, ⟨hM, ?_, ?_⟩⟩
  · rw [hA]; simp [List.length_scanl]
  · rw [hA]
    intro c hc
    rcases List.mem_cons.mp hc with rfl | hc
    · rfl
    · obtain ⟨i, hi, rfl⟩ := List.mem_iff_getElem.mp hc
      simp [Call.isAdd]
  · rw [hM]; simp [List.length_scanl]
  · rw [hM]
    intro c hc
    rcases List.mem_cons.mp hc with rfl | hc
    · rfl
    · obtain ⟨i, hi, rfl⟩ := List.mem_iff_getElem.mp hc
      simp [Call.isMul]

/-- C4, at a concrete input: `Add(a, b, c, d)` over the sample Engine is
`((a+b)+c)+d` with three calls of the Engine's `Add`, and `Mul(a, b, c, d)` is
`((a*b)*c)*d`. -/
theorem add_mul_left_fold_witness :
    (Add sampleAPI (.element (sampleElement 1)) (.element (sampleElement 3))
        [.elementPtr (sampleElement 5), .element (sampleElement 7)]).result =
      .ok (sampleAPI.api.Add (sampleAPI.api.Add (sampleAPI.api.Add
        (sampleElement 1) (sampleElement 3)) (sampleElement 5)) (sampleElement 7)) ∧
    (Add sampleAPI (.element (sampleElement 1)) (.element (sampleElement 3))
        [.elementPtr (sampleElement 5), .element (sampleElement 7)]).calls.length = 3 ∧
    (Mul sampleAPI (.element (sampleElement 1)) (.element (sampleElement 3))
        [.elementPtr (sampleElement 5), .element (sampleElement 7)]).result =
      .ok (sampleAPI.api.Mul (sampleAPI.api.Mul (sampleAPI.api.Mul
        (sampleElement 1) (sampleElement 3)) (sampleElement 5)) (sampleElement 7)) := by
  have h := add_mul_left_fold sampleAPI (.element (sampleElement 1))
    (.element (sampleElement 3)) [.elementPtr (sampleElement 5), .element (sampleElement 7)]
    (sampleElement 1) (sampleElement 3) [sampleElement 5, sampleElement 7] rfl
  refine ⟨?_, ?_, ?_⟩
  · rw [h.1.1]; rfl
  · rw [h.1.2.1]; rfl
  · rw [h.2.1]; rfl

theorem sub_outcome (f : fakeAPI) (i1 i2 : Variable) (rest : List Variable)
    (e0 e1 : Element) (tl : List Element)
    (h : varsToElements f (i1 :: i2 :: rest) = .ok (e0 :: e1 :: tl)) :
    Sub f i1 i2 rest =
      ⟨.ok (f.api.Sub e0 (tl.foldl f.api.Add e1)),
        Call.set e1 :: (List.zipWith Call.add (List.scanl f.api.Add e1 tl) tl ++
          [Call.sub e0 (tl.foldl f.api.Add e1)])⟩ := by
  have hp : e1.params = f.params :=
    varsToElements_params f _ _ h e1 (by simp)
  rw [← varsToElements_variadic] at h
  simp only [Sub, h, accumulate_fst, accumulate_snd, set_copy f e1 hp, List.cons_append]

theorem filter_isSub_adds (op : Element → Element → Element) (es : List Element)
    (res : Element) :
    (List.zipWith Call.add (List.scanl op res es) es).filter Call.isSub = [] := by
  rw [List.filter_eq_nil_iff]
  intro c hc
  obtain ⟨i, hi, rfl⟩ := List.mem_iff_getElem.mp hc
  simp [Call.isSub]

theorem foldl_add_den (E : Engine) (den : Element → Int) (m : Int)
    (hAdd : ∀ x y, den (E.Add x y) ≡ den x + den y [ZMOD m]) :
    ∀ (tl : List Element) (s : Element),
      den (tl.foldl E.Add s) ≡ den s + (tl.map den).sum [ZMOD m]
  | [], s => by simp [Int.ModEq]
  | e :: tl, s => by
    simp only [List.foldl_cons, List.map_cons, List.sum_cons]
    have h1 := foldl_add_den E den m hAdd tl (E.Add s e)
    have h2 := (hAdd s e).add_right (tl.map den).sum
    have h3 := h1.trans h2
    rw [add_assoc] at h3
    exact h3

theorem symbolicValue_map_add (env : Nat → Int) (w : Nat) :
    ∀ b : List Limb, symbolicValue env w (b.map (Limb.add (Limb.const 0))) =
      symbolicValue env w b
  | [] => rfl
  | b :: bs => by
    simp [symbolicValue, Limb.eval, symbolicValue_map_add env w bs]

theorem symbolicValue_map_sub (env : Nat → Int) (w : Nat) :
    ∀ b : List Limb, symbolicValue env w (b.map (Limb.sub (Limb.const 0))) =
      - symbolicValue env w b
  | [] => by simp [symbolicValue]
  | b :: bs => by
    simp only [List.map_cons, symbolicValue, Limb.eval, symbolicValue_map_sub env w bs]
    ring

theorem symbolicValue_zip_add (env : Nat → Int) (w : Nat) :
    ∀ a b : List Limb, symbolicValue env w (zipLimbs Limb.add a b) =
      symbolicValue env w a + symbolicValue env w b
  | [], b => by simp [zipLimbs, symbolicValue, symbolicValue_map_add]
  | a :: as, [] => by
    simp [zipLimbs, symbolicValue, Limb.eval, symbolicValue_zip_add env w as []]
  | a :: as, b :: bs => by
    simp only [zipLimbs, symbolicValue, Limb.eval, symbolicValue_zip_add env w as bs]
    ring

theorem symbolicValue_zip_sub (env : Nat → Int) (w : Nat) :
    ∀ a b : List Limb, symbolicValue env w (zipLimbs Limb.sub a b) =
      symbolicValue env w a - symbolicValue env w b
  | [], b => by simp [zipLimbs, symbolicValue, symbolicValue_map_sub]
  | a :: as, [] => by
    simp [zipLimbs, symbolicValue, Limb.eval, symbolicValue_zip_sub env w as []]
  | a :: as, b :: bs => by
    simp only [zipLimbs, symbolicValue, Limb.eval, symbolicValue_zip_sub env w as bs]
    ring

/-- C5, refuted at a concrete input: over the sample Engine, `Sub(a, b, c, d)` is not
the Element `((a-b)-c)-d`; it differs from it in its limbs and in its overflow, and
the Engine's subtraction has been called once, not three times. -/
theorem sub_is_not_left_fold_of_sub :
    (Sub sampleAPI (.element (sampleElement 1)) (.element (sampleElement 3))
        [.element (sampleElement 5), .element (sampleElement 7)]).result ≠
      .ok (sampleAPI.api.Sub (sampleAPI.api.Sub (sampleAPI.api.Sub
        (sampleElement 1) (sampleElement 3)) (sampleElement 5)) (sampleElement 7)) ∧
    (Sub sampleAPI (.element (sampleElement 1)) (.element (sampleElement 3))
        [.element (sampleElement 5), .element (sampleElement 7)]).result =
      .ok ⟨[.sub (.wire 1) (.add (.add (.wire 3) (.wire 5)) (.wire 7)),
            .sub (.wire 2) (.add (.add (.wire 4) (.wire 6)) (.wire 8))], 4, sampleParams⟩ ∧
    sampleAPI.api.Sub (sampleAPI.api.Sub (sampleAPI.api.Sub
        (sampleElement 1) (sampleElement 3)) (sampleElement 5)) (sampleElement 7) =
      ⟨[.sub (.sub (.sub (.wire 1) (.wire 3)) (.wire 5)) (.wire 7),
        .sub (.sub (.sub (.wire 2) (.wire 4)) (.wire 6)) (.wire 8)], 6, sampleParams⟩ ∧
    ((Sub sampleAPI (.element (sampleElement 1)) (.element (sampleElement 3))
        [.element (sampleElement 5), .element (sampleElement 7)]).calls.filter
          Call.isSub).length = 1 := by
  refine ⟨by decide, rfl, rfl, rfl⟩

/-- C5, as amended: when the operands normalise to `e0, e1, tl...`, the dispatch
`Sub` returns the Element obtained by accumulating the subtrahends `e1, tl...`
left to right with the Engine's `Add` and subtracting the sum from `e0` with one
Engine `Sub`; with exactly two operands this is `e0 - e1`. -/
theorem sub_accumulates_subtrahend (f : fakeAPI) (i1 i2 : Variable) (rest : List Variable)
    (e0 e1 : Element) (tl : List Element)
    (h : varsToElements f (i1 :: i2 :: rest) = .ok (e0 :: e1 :: tl)) :
    (Sub f i1 i2 rest).result = .ok (f.api.Sub e0 (tl.foldl f.api.Add e1)) ∧
    (tl = [] → (Sub f i1 i2 rest).result = .ok (f.api.Sub e0 e1)) := by
  rw [sub_outcome f i1 i2 rest e0 e1 tl h]
  refine ⟨rfl, ?_⟩
  rintro rfl
  rfl

/-- C5 as amended, at a concrete input: `Sub(a, b, c, d)` over the sample Engine is
`a - ((b+c)+d)`. -/
theorem sub_accumulates_subtrahend_witness :
    (Sub sampleAPI (.element (sampleElement 1)) (.element (sampleElement 3))
        [.element (sampleElement 5), .element (sampleElement 7)]).result =
      .ok (sampleAPI.api.Sub (sampleElement 1) (sampleAPI.api.Add (sampleAPI.api.Add
        (sampleElement 3) (sampleElement 5)) (sampleElement 7))) :=
  (sub_accumulates_subtrahend sampleAPI (.element (sampleElement 1))
    (.element (sampleElement 3)) [.element (sampleElement 5), .element (sampleElement 7)]
    (sampleElement 1) (sampleElement 3) [sampleElement 5, sampleElement 7] rfl).1

/-- C10: when the operands `a, b, c1..ck` normalise to `e0, e1, tl...`, the dispatch
`Sub` copies `e1`, adds `tl` to the copy by a left fold of the Engine's `Add`, and
calls the Engine's `Sub` exactly once, as its last call, on `e0` and the accumulated
subtrahend `s`; it returns that result. With `k = 0` the subtrahend is the copy of
`e1`. Whenever a denotation `den` modulo `m` is respected by the Engine's `Add` and
`Sub`, the result denotes `den e0 - (den e1 + Σ den tl)`. -/
theorem sub_single_subtraction (f : fakeAPI) (i1 i2 : Variable) (rest : List Variable)
    (e0 e1 : Element) (tl : List Element)
    (h : varsToElements f (i1 :: i2 :: rest) = .ok (e0 :: e1 :: tl)) :
    Sub f i1 i2 rest =
      ⟨.ok (f.api.Sub e0 (tl.foldl f.api.Add e1)),
        Call.set e1 :: (List.zipWith Call.add (List.scanl f.api.Add e1 tl) tl ++
          [Call.sub e0 (tl.foldl f.api.Add e1)])⟩ ∧
    ((Sub f i1 i2 rest).calls.filter Call.isSub).length = 1 ∧
    ((Sub f i1 i2 rest).calls.filter Call.isAdd).length = tl.length ∧
    (f.params.Element.Set e1 = e1 ∧
      (tl = [] → Sub f i1 i2 rest = ⟨.ok (f.api.Sub e0 e1), [Call.set e1, Call.sub e0 e1]⟩)) ∧
    (∀ (den : Element → Int) (m : Int),
      (∀ x y, den (f.api.Add x y) ≡ den x + den y [ZMOD m]) →
      (∀ x y, den (f.api.Sub x y) ≡ den x - den y [ZMOD m]) →
      den (f.api.Sub e0 (tl.foldl f.api.Add e1)) ≡
        den e0 - (den e1 + (tl.map den).sum) [ZMOD m]) := by
  have hp : e1.params = f.params :=
    varsToElements_params f _ _ h e1 (by simp)
  have ho := sub_outcome f i1 i2 rest e0 e1 tl h
  refine ⟨ho, ?_, ?_, ⟨set_copy f e1 hp, ?_⟩, ?_⟩
  · rw [ho]
    simp [List.filter_cons, List.filter_append, filter_isSub_adds, Call.isSub]
  · rw [ho]
    have hall : (List.zipWith Call.add (List.scanl f.api.Add e1 tl) tl).filter Call.isAdd
        = List.zipWith Call.add (List.scanl f.api.Add e1 tl) tl := by
      rw [List.filter_eq_self]
      intro c hc
      obtain ⟨i, hi, rfl⟩ := List.mem_iff_getElem.mp hc
      simp [Call.isAdd]
    simp [List.filter_cons, List.filter_append, hall, Call.isAdd, List.length_scanl]
  · rintro rfl
    rw [ho]
    rfl
  · intro den m hAdd hSub
    exact (hSub e0 _).trans ((Int.ModEq.refl (den e0)).sub (foldl_add_den f.api den m hAdd tl e1))

/-- C10, at a concrete input: `Sub(a, b, c, d)` over the sample Engine calls the
Engine's subtraction once and its addition twice, and the value of its limbs is the
value of `a` minus the values of `b`, `c` and `d`, with wire `i` holding `i`. -/
theorem sub_single_subtraction_witness :
    ((Sub sampleAPI (.element (sampleElement 1)) (.element (sampleElement 3))
        [.element (sampleElement 5), .element (sampleElement 7)]).calls.filter
          Call.isSub).length = 1 ∧
    ((Sub sampleAPI (.element (sampleElement 1)) (.element (sampleElement 3))
        [.element (sampleElement 5), .element (sampleElement 7)]).calls.filter
          Call.isAdd).length = 2 ∧
    symbolicValue sampleWires 4 (sampleAPI.api.Sub (sampleElement 1) (sampleAPI.api.Add
        (sampleAPI.api.Add (sampleElement 3) (sampleElement 5)) (sampleElement 7))).Limbs ≡
      symbolicValue sampleWires 4 (sampleElement 1).Limbs -
        (symbolicValue sampleWires 4 (sampleElement 3).Limbs +
          (symbolicValue sampleWires 4 (sampleElement 5).Limbs +
            (symbolicValue sampleWires 4 (sampleElement 7).Limbs + 0))) [ZMOD 23] := by
  have h := sub_single_subtraction sampleAPI (.element (sampleElement 1))
    (.element (sampleElement 3)) [.element (sampleElement 5), .element (sampleElement 7)]
    (sampleElement 1) (sampleElement 3) [sampleElement 5, sampleElement 7] rfl
  refine ⟨h.2.1, h.2.2.1, ?_⟩
  exact h.2.2.2.2 (fun e => symbolicValue sampleWires 4 e.Limbs) 23
    (fun x y => by
      show symbolicValue sampleWires 4 (zipLimbs Limb.add x.Limbs y.Limbs) ≡ _ [ZMOD 23]
      rw [symbolicValue_zip_add])
    (fun x y => by
      show symbolicValue sampleWires 4 (zipLimbs Limb.sub x.Limbs y.Limbs) ≡ _ [ZMOD 23]
      rw [symbolicValue_zip_sub])

/-! Section: Select. -/

theorem reduceIfNeeded_spec (f : fakeAPI) (s : Element)
    (hred : (f.api.Reduce s).overflow = 0 ∧ (f.api.Reduce s).Limbs.length = f.params.nbLimbs) :
    reduceIfNeeded f s =
      (if isCanonicalShape f s then s else f.api.Reduce s,
       if isCanonicalShape f s then [] else [Call.reduce s]) ∧
    (reduceIfNeeded f s).1.overflow = 0 ∧
    (reduceIfNeeded f s).1.Limbs.length = f.params.nbLimbs := by
  unfold reduceIfNeeded isCanonicalShape
  by_cases h : s.overflow ≠ 0 ∨ s.Limbs.length ≠ f.params.nbLimbs
  · have hc : ¬ (s.overflow = 0 ∧ s.Limbs.length = f.params.nbLimbs) := by
      rintro ⟨h1, h2⟩
      rcases h with h | h
      · exact h h1
      · exact h h2
    simp [h, hc, hred.1, hred.2]
  · have hc : s.overflow = 0 ∧ s.Limbs.length = f.params.nbLimbs := by
      constructor
      · by_contra h1; exact h (Or.inl h1)
      · by_contra h2; exact h (Or.inr h2)
    simp [hc.1, hc.2]

/-- C6: when the operands of `Select` normalise to `a` and `c`: if `a` and `c` have
the same overflow and the same number of limbs, the only call is the Engine's
per-limb select on `a` and `c` themselves (no `Reduce`); otherwise each of the two is
handed on as it is when it has overflow 0 and exactly `nbLimbs` limbs and is reduced
first when not, so that, `Reduce` returning a canonical Element, both elements handed
to the per-limb select have overflow 0 and `nbLimbs` limbs. In both cases every select
call made has operands of identical overflow and limb count. -/
theorem select_operands_aligned (f : fakeAPI) (b i1 i2 : Variable) (a c : Element)
    (more : List Element)
    (h : varsToElements f [i1, i2] = .ok (a :: c :: more))
    (hred : ∀ x, (f.api.Reduce x).overflow = 0 ∧
      (f.api.Reduce x).Limbs.length = f.params.nbLimbs) :
    (a.overflow = c.overflow ∧ a.Limbs.length = c.Limbs.length →
      Select f b i1 i2 = ⟨.ok (f.api.Select b a c), [Call.select b a c]⟩) ∧
    (¬ (a.overflow = c.overflow ∧ a.Limbs.length = c.Limbs.length) →
      ∃ s1 s2 : Element,
        s1 = (if isCanonicalShape f a then a else f.api.Reduce a) ∧
        s2 = (if isCanonicalShape f c then c else f.api.Reduce c) ∧
        Select f b i1 i2 =
          ⟨.ok (f.api.Select b s1 s2),
            (if isCanonicalShape f a then [] else [Call.reduce a]) ++
            (if isCanonicalShape f c then [] else [Call.reduce c]) ++
            [Call.select b s1 s2]⟩ ∧
        (s1.overflow = 0 ∧ s1.Limbs.length = f.params.nbLimbs) ∧
        (s2.overflow = 0 ∧ s2.Limbs.length = f.params.nbLimbs)) ∧
    (∀ call ∈ (Select f b i1 i2).calls, ∀ b1 x y, call = Call.select b1 x y →
      x.overflow = y.overflow ∧ x.Limbs.length = y.Limbs.length) := by
  have h1 := reduceIfNeeded_spec f a (hred a)
  have h2 := reduceIfNeeded_spec f c (hred c)
  refine ⟨?_, ?_, ?_⟩
  · intro hs
    simp only [Select, h, hs, and_self, if_true]
  · intro hs
    refine ⟨(reduceIfNeeded f a).1, (reduceIfNeeded f c).1, ?_, ?_, ?_, h1.2, h2.2⟩
    · rw [h1.1]
    · rw [h2.1]
    · simp only [Select, h, hs, if_false]
      rw [h1.1, h2.1]
  · intro call hcall b1 x y hxy
    subst hxy
    by_cases hs : a.overflow = c.overflow ∧ a.Limbs.length = c.Limbs.length
    · simp only [Select, h, hs, and_self, if_true, List.mem_singleton, Call.select.injEq] at hcall
      obtain ⟨-, rfl, rfl⟩ := hcall
      exact hs
    · simp only [Select, h, hs, if_false] at hcall
      rw [h1.1, h2.1] at hcall
      simp only [List.mem_append, List.mem_singleton] at hcall
      rcases hcall with (hcall | hcall) | hcall
      · split at hcall <;> simp at hcall
      · split at hcall <;> simp at hcall
      · simp only [Call.select.injEq] at hcall
        obtain ⟨-, rfl, rfl⟩ := hcall
        have e1 := h1.2
        have e2 := h2.2
        rw [h1.1] at e1
        rw [h2.1] at e2
        exact ⟨e1.1.trans e2.1.symm, e1.2.trans e2.2.symm⟩

/-- C6, at a concrete input: selecting between a sample canonical Element and the sum of
two of them (overflow 1) reduces the sum only and hands two Elements of overflow 0
and 2 limbs to the per-limb select. -/
theorem select_operands_aligned_witness :
    ∃ s1 s2 : Element,
      s1 = sampleElement 1 ∧
      s2 = sampleAPI.api.Reduce (sampleAPI.api.Add (sampleElement 3) (sampleElement 5)) ∧
      Select sampleAPI (.native (.wire 0)) (.element (sampleElement 1))
        (.element (sampleAPI.api.Add (sampleElement 3) (sampleElement 5))) =
        ⟨.ok (sampleAPI.api.Select (.native (.wire 0)) s1 s2),
          [Call.reduce (sampleAPI.api.Add (sampleElement 3) (sampleElement 5)),
           Call.select (.native (.wire 0)) s1 s2]⟩ ∧
      (s1.overflow = 0 ∧ s1.Limbs.length = 2) ∧ (s2.overflow = 0 ∧ s2.Limbs.length = 2) :=
  (select_operands_aligned sampleAPI (.native (.wire 0)) (.element (sampleElement 1))
    (.element (sampleAPI.api.Add (sampleElement 3) (sampleElement 5)))
    (sampleElement 1) (sampleAPI.api.Add (sampleElement 3) (sampleElement 5)) [] rfl
    (fun _ => ⟨rfl, rfl⟩)).2.1 (by decide)

/-! Section: Limb values. -/

theorem limbsValue_nil (w : Nat) : limbsValue [] w = 0 := rfl

theorem limbsValue_cons (l : Nat) (ls : List Nat) (w : Nat) :
    limbsValue (l :: ls) w = l + 2 ^ w * limbsValue ls w := by
  unfold limbsValue
  rw [List.length_cons, List.range_succ_eq_map, List.map_cons, List.sum_cons, List.map_map,
    ← List.sum_map_mul_left]
  simp only [List.getD_cons_zero, Nat.zero_mul, pow_zero, Nat.mul_one, Nat.add_left_cancel_iff]
  congr 1
  apply List.map_congr_left
  intro i _
  simp only [Function.comp, List.getD_cons_succ, Nat.succ_mul, pow_add]
  ring

theorem limbsValue_eq_zero (w : Nat) :
    ∀ ls : List Nat, limbsValue ls w = 0 ↔ ∀ l ∈ ls, l = 0
  | [] => by simp [limbsValue_nil]
  | l :: ls => by
    rw [limbsValue_cons]
    have hp : 0 < 2 ^ w := Nat.pow_pos (by norm_num)
    simp only [Nat.add_eq_zero_iff, Nat.mul_eq_zero, List.mem_cons, forall_eq_or_imp,
      limbsValue_eq_zero w ls]
    constructor
    · rintro ⟨h1, h2 | h2⟩
      · omega
      · exact ⟨h1, h2⟩
    · rintro ⟨h1, h2⟩
      exact ⟨h1, Or.inr h2⟩

/-! Section: Boolean assertion and bit decomposition. -/

theorem assertElementIsBoolean_calls (f : fakeAPI) (vv : Element) (l0 : Limb)
    (ls : List Limb) (hl : (f.api.Reduce vv).Limbs = l0 :: ls) :
    assertElementIsBoolean f vv =
      ⟨.ok (), Call.reduce vv :: Call.nativeAssertIsBoolean (.native l0) ::
        ls.map (fun l => Call.nativeAssertIsEqual l 0)⟩ := by
  simp only [assertElementIsBoolean, hl]

/-- C7: for an Emulated Element `vv`, passed by value or by reference, whose reduction
has limbs `l0, ls...`, `AssertIsBoolean` calls `Reduce` on `vv` and then emits exactly
the native assertions "`l0` is boolean" and "`l = 0`" for every further limb `l`, in
limb order. With `limbBits ≥ 1`, these assertions hold under a valuation of the limbs
exactly when the limbs of `Reduce(vv)` decode to 0 or to 1. For an operand that is not
an Emulated Element, the only call is the native boolean assertion on the operand
itself. -/
theorem assertIsBoolean_calls (f : fakeAPI) (vv : Element) (l0 : Limb) (ls : List Limb)
    (hl : (f.api.Reduce vv).Limbs = l0 :: ls) :
    (AssertIsBoolean f (.element vv) =
        ⟨.ok (), Call.reduce vv :: Call.nativeAssertIsBoolean (.native l0) ::
          ls.map (fun l => Call.nativeAssertIsEqual l 0)⟩ ∧
      AssertIsBoolean f (.elementPtr vv) =
        ⟨.ok (), Call.reduce vv :: Call.nativeAssertIsBoolean (.native l0) ::
          ls.map (fun l => Call.nativeAssertIsEqual l 0)⟩) ∧
    (∀ val : Variable → Nat, 1 ≤ f.params.nbBits →
      ((∀ c ∈ (AssertIsBoolean f (.element vv)).calls, nativeAssertionHolds val c = true) ↔
        (limbsValue ((f.api.Reduce vv).Limbs.map (fun l => val (.native l)))
            f.params.nbBits = 0 ∨
         limbsValue ((f.api.Reduce vv).Limbs.map (fun l => val (.native l)))
            f.params.nbBits = 1))) ∧
    (∀ v : Variable, (∀ e, v ≠ .element e) → (∀ e, v ≠ .elementPtr e) →
      AssertIsBoolean f v = ⟨.ok (), [Call.nativeAssertIsBoolean v]⟩) := by
  have hc := assertElementIsBoolean_calls f vv l0 ls hl
  refine ⟨⟨by rw [AssertIsBoolean, hc], by rw [AssertIsBoolean, hc]⟩, ?_, ?_⟩
  · intro val hw
    rw [AssertIsBoolean, hc, hl]
    simp only [List.forall_mem_cons, List.forall_mem_map, nativeAssertionHolds, true_and,
      List.map_cons, limbsValue_cons, Bool.or_eq_true, beq_iff_eq]
    have h2 : 2 ≤ 2 ^ f.params.nbBits := by
      calc 2 = 2 ^ 1 := by norm_num
        _ ≤ 2 ^ f.params.nbBits := Nat.pow_le_pow_right (by norm_num) hw
    have hz : (∀ l ∈ ls, (val (.native l) : Int) = 0) ↔
        limbsValue (ls.map (fun l => val (.native l))) f.params.nbBits = 0 := by
      rw [limbsValue_eq_zero]
      simp only [List.forall_mem_map]
      constructor
      · intro h l hlm
        exact_mod_cast h l hlm
      · intro h l hlm
        exact_mod_cast h l hlm
    rw [hz]
    constructor
    · rintro ⟨h0, hr⟩
      rw [hr]
      omega
    · intro hv
      have hr : limbsValue (ls.map (fun l => val (.native l))) f.params.nbBits = 0 := by
        by_contra hne
        have hpos : 1 ≤ limbsValue (ls.map (fun l => val (.native l))) f.params.nbBits :=
          Nat.one_le_iff_ne_zero.mpr hne
        have hge : 2 ≤ 2 ^ f.params.nbBits *
            limbsValue (ls.map (fun l => val (.native l))) f.params.nbBits :=
          le_trans h2 (Nat.le_mul_of_pos_right _ hpos)
        omega
      rw [hr] at hv
      exact ⟨by omega, hr⟩
  · intro v h1 h2
    cases v
    case element e => exact absurd rfl (h1 e)
    case elementPtr e => exact absurd rfl (h2 e)
    all_goals rfl

/-- C7, at a concrete input: on a sample Element (reduced to the two hint wires 0 and
1) `AssertIsBoolean` reduces, asserts wire 0 boolean and wire 1 equal to 0; under the
sample values of the wires these assertions hold exactly when the reduction decodes
to 0 or 1. -/
theorem assertIsBoolean_calls_witness :
    AssertIsBoolean sampleAPI (.element (sampleElement 3)) =
      ⟨.ok (), [Call.reduce (sampleElement 3),
        Call.nativeAssertIsBoolean (.native (.wire 0)),
        Call.nativeAssertIsEqual (.wire 1) 0]⟩ ∧
    ((∀ c ∈ (AssertIsBoolean sampleAPI (.element (sampleElement 3))).calls,
        nativeAssertionHolds sampleValuation c = true) ↔
      (limbsValue ((sampleAPI.api.Reduce (sampleElement 3)).Limbs.map
          (fun l => sampleValuation (.native l))) 4 = 0 ∨
       limbsValue ((sampleAPI.api.Reduce (sampleElement 3)).Limbs.map
          (fun l => sampleValuation (.native l))) 4 = 1)) :=
  ⟨(assertIsBoolean_calls sampleAPI (sampleElement 3) (.wire 0) [.wire 1] rfl).1.1,
   (assertIsBoolean_calls sampleAPI (sampleElement 3) (.wire 0) [.wire 1] rfl).2.1
     sampleValuation (by decide)⟩

/-- C8: for an operand that normalises to `a`, `ToBinary` calls `Reduce` on `a` and
`ToBits` on the result; with no length argument it returns all the bits of
`ToBits(Reduce(a))` in their order; with one length argument `n`,
`0 ≤ n ≤ len(bits)`, it returns the first `n` of them; with more than one length
argument it aborts with the configuration fault for a single vararg, whatever the
arguments are (and with some configuration fault whatever the operand is). -/
theorem toBinary_lengths (f : fakeAPI) (i1 : Variable) (a : Element)
    (h : varToElement f i1 = .ok a) :
    ToBinary f i1 [] =
      ⟨.ok (f.api.ToBits (f.api.Reduce a)),
        [Call.reduce a, Call.toBits (f.api.Reduce a)]⟩ ∧
    (∀ n : Int, 0 ≤ n → n.toNat ≤ (f.api.ToBits (f.api.Reduce a)).length →
      ToBinary f i1 [n] =
        ⟨.ok ((f.api.ToBits (f.api.Reduce a)).take n.toNat),
          [Call.reduce a, Call.toBits (f.api.Reduce a)]⟩) ∧
    (∀ (n0 n1 : Int) (more : List Int),
      ToBinary f i1 (n0 :: n1 :: more) =
        ⟨.error .singleVararg, [Call.reduce a, Call.toBits (f.api.Reduce a)]⟩ ∧
      Fault.singleVararg.isConfiguration = true) ∧
    (∀ (j : Variable) (n0 n1 : Int) (more : List Int),
      ∃ x : Fault, x.isConfiguration = true ∧
        (ToBinary f j (n0 :: n1 :: more)).result = .error x) := by
  refine ⟨?_, ?_, ?_, ?_⟩
  · simp only [ToBinary, h]
  · intro n hn hlen
    have hle : n.toNat ≤ (f.api.ToBits (f.api.Reduce a)).length +
        (f.api.ToBitsSpare (f.api.Reduce a)).length := Nat.le_add_right_of_le hlen
    simp only [ToBinary, h, hn, hle, and_self, if_true, List.take_append_of_le_length hlen]
  · intro n0 n1 more
    exact ⟨by simp only [ToBinary, h], rfl⟩
  · intro j n0 n1 more
    cases hj : varToElement f j with
    | error x => exact ⟨x, varToElement_error_config f j x hj, by simp only [ToBinary, hj]⟩
    | ok e => exact ⟨.singleVararg, rfl, by simp only [ToBinary, hj]⟩

/-- C8, at a concrete input: `ToBinary` of a sample Element with length 3 returns the
first three of the eight bits of its reduction. -/
theorem toBinary_lengths_witness :
    (ToBinary sampleAPI (.element (sampleElement 1)) []).result =
      .ok ((List.range 8).map (fun i => Limb.wire (1000 + i))) ∧
    (ToBinary sampleAPI (.element (sampleElement 1)) [3]).result =
      .ok [Limb.wire 1000, Limb.wire 1001, Limb.wire 1002] ∧
    (ToBinary sampleAPI (.element (sampleElement 1)) [3, 4]).result =
      .error .singleVararg := by
  have h := toBinary_lengths sampleAPI (.element (sampleElement 1)) (sampleElement 1) rfl
  refine ⟨?_, ?_, ?_⟩
  · rw [h.1]; rfl
  · rw [h.2.1 3 (by decide) (by decide)]; rfl
  · rw [(h.2.2.1 3 4 []).1]

/-! Section: Hint bridge. -/

theorem bitLenAux_le_iff : ∀ (fuel v k : Nat), v ≤ fuel →
    (bitLenAux fuel v ≤ k ↔ v < 2 ^ k)
  | 0, v, k, h => by
    have hv : v = 0 := by omega
    subst hv
    simp [bitLenAux]
  | fuel + 1, v, k, h => by
    by_cases hv : v = 0
    · subst hv
      simp [bitLenAux]
    · simp only [bitLenAux, hv, if_false]
      cases k with
      | zero =>
        simp only [pow_zero, Nat.lt_one_iff]
        constructor
        · intro h1; omega
        · intro h1; exact absurd h1 hv
      | succ k =>
        have hle : v / 2 ≤ fuel := by omega
        rw [Nat.succ_le_succ_iff, bitLenAux_le_iff fuel (v / 2) k hle,
          Nat.div_lt_iff_lt_mul (by norm_num : 0 < 2), pow_succ]

theorem bitLen_le_iff (v k : Nat) : bitLen v ≤ k ↔ v < 2 ^ k :=
  bitLenAux_le_iff v v k (le_refl v)

theorem limbs_round_trip (w : Nat) : ∀ (n v : Nat), v < 2 ^ (n * w) →
    limbsValue ((List.range n).map (fun i => v / 2 ^ (i * w) % 2 ^ w)) w = v
  | 0, v, h => by
    simp only [Nat.zero_mul, pow_zero, Nat.lt_one_iff] at h
    subst h
    rfl
  | n + 1, v, h => by
    have hpos : 0 < 2 ^ w := Nat.pow_pos (by norm_num)
    have hdiv : v / 2 ^ w < 2 ^ (n * w) := by
      rw [Nat.div_lt_iff_lt_mul hpos, ← pow_add]
      rw [Nat.succ_mul] at h
      exact h
    have hshift : ∀ i, v / 2 ^ ((i + 1) * w) % 2 ^ w = v / 2 ^ w / 2 ^ (i * w) % 2 ^ w := by
      intro i
      rw [Nat.div_div_eq_div_mul, ← pow_add, Nat.succ_mul, Nat.add_comm]
    rw [List.range_succ_eq_map, List.map_cons, List.map_map, limbsValue_cons]
    have hmap : List.map ((fun i => v / 2 ^ (i * w) % 2 ^ w) ∘ Nat.succ) (List.range n) =
        List.map (fun i => v / 2 ^ w / 2 ^ (i * w) % 2 ^ w) (List.range n) := by
      apply List.map_congr_left
      intro i _
      exact hshift i
    rw [hmap, limbs_round_trip w n (v / 2 ^ w) hdiv]
    simp only [Nat.zero_mul, pow_zero, Nat.div_one]
    exact Nat.mod_add_div v (2 ^ w)

theorem limbsSum_nil (w : Nat) : limbsSum [] w = 0 := rfl

theorem limbsSum_cons (l : Int) (ls : List Int) (w : Nat) :
    limbsSum (l :: ls) w = l + ((2 ^ w : Nat) : Int) * limbsSum ls w := by
  unfold limbsSum
  rw [List.length_cons, List.range_succ_eq_map, List.map_cons, List.sum_cons, List.map_map,
    ← List.sum_map_mul_left]
  simp only [List.getD_cons_zero, Nat.zero_mul, pow_zero, Nat.cast_one, mul_one,
    add_right_inj]
  congr 1
  apply List.map_congr_left
  intro i _
  simp only [Function.comp, List.getD_cons_succ, Nat.succ_mul, pow_add, Nat.cast_mul]
  ring

theorem limbsSum_cast (w : Nat) : ∀ ls : List Nat,
    limbsSum (ls.map (fun (l : Nat) => (l : Int))) w = (limbsValue ls w : Int)
  | [] => rfl
  | l :: ls => by
    rw [List.map_cons, limbsSum_cons, limbsValue_cons, limbsSum_cast w ls]
    push_cast
    rfl

theorem limbsSum_nonneg (w : Nat) : ∀ ls : List Int, (∀ l ∈ ls, 0 ≤ l) → 0 ≤ limbsSum ls w
  | [], _ => le_refl _
  | l :: ls, h => by
    rw [limbsSum_cons]
    have h1 : 0 ≤ l := h l (List.mem_cons_self _ _)
    have h2 : 0 ≤ limbsSum ls w :=
      limbsSum_nonneg w ls (fun x hx => h x (List.mem_cons_of_mem _ hx))
    have h3 : (0 : Int) ≤ ((2 ^ w : Nat) : Int) := Int.natCast_nonneg _
    exact add_nonneg h1 (mul_nonneg h3 h2)

theorem decompose_fits (v : Int) (w n : Nat) (h0 : 0 ≤ v) (h : bitLen v.natAbs ≤ n * w) :
    decompose v w n = .ok ((List.range n).map
      (fun i => ((v.natAbs / 2 ^ (i * w) % 2 ^ w : Nat) : Int))) := by
  unfold decompose
  rw [if_neg (by omega)]
  congr 1
  apply List.map_congr_left
  intro i _
  have hv : v = (v.natAbs : Int) := (Int.natAbs_of_nonneg h0).symm
  conv_lhs => rw [hv]
  norm_cast

theorem decompose_too_large (v : Int) (w n : Nat) (h : n * w < bitLen v.natAbs) :
    decompose v w n = .error "decomposed integer does not fit into res" := by
  unfold decompose
  rw [if_pos h]

theorem decomposeOutputs_fits (w n : Nat) : ∀ outs : List Int,
    (∀ o ∈ outs, 0 ≤ o ∧ bitLen o.natAbs ≤ n * w) →
    ∃ out : List Int, decomposeOutputs specComposition w n outs = .ok out ∧
      out.length = outs.length * n ∧
      ∀ i (hi : i < outs.length),
        limbsSum ((out.drop (i * n)).take n) w = outs.get ⟨i, hi⟩
  | [], _ => ⟨[], rfl, by simp, fun i hi => absurd hi (by simp)⟩
  | o :: rest, h => by
    obtain ⟨more, hmore, hlen, hblocks⟩ :=
      decomposeOutputs_fits w n rest (fun x hx => h x (List.mem_cons_of_mem _ hx))
    have ho := h o (List.mem_cons_self _ _)
    have hblock : ((List.range n).map
        (fun i => ((o.natAbs / 2 ^ (i * w) % 2 ^ w : Nat) : Int))).length = n := by
      simp
    refine ⟨(List.range n).map
      (fun i => ((o.natAbs / 2 ^ (i * w) % 2 ^ w : Nat) : Int)) ++ more, ?_, ?_, ?_⟩
    · simp only [decomposeOutputs, specComposition, decompose_fits o w n ho.1 ho.2]
      simp only [specComposition] at hmore
      rw [hmore]
    · simp only [List.length_append, hblock, hlen, List.length_cons]
      ring
    · intro i hi
      cases i with
      | zero =>
        simp only [Nat.zero_mul, List.drop_zero, List.get_cons_zero]
        rw [List.take_left' hblock]
        have hmap : (List.range n).map
            (fun i => ((o.natAbs / 2 ^ (i * w) % 2 ^ w : Nat) : Int)) =
            ((List.range n).map (fun i => o.natAbs / 2 ^ (i * w) % 2 ^ w)).map
              (fun (l : Nat) => (l : Int)) := by
          rw [List.map_map]
          rfl
        rw [hmap, limbsSum_cast,
          limbs_round_trip w n o.natAbs ((bitLen_le_iff o.natAbs (n * w)).mp ho.2)]
        exact Int.natAbs_of_nonneg ho.1
      | succ j =>
        have hj : j < rest.length := by simpa using hi
        have hd : (j + 1) * n = ((List.range n).map
            (fun i => ((o.natAbs / 2 ^ (i * w) % 2 ^ w : Nat) : Int))).length + j * n := by
          rw [hblock]; ring
        rw [hd, List.drop_append]
        exact hblocks j hj

theorem decomposeOutputs_too_large (C : Composition) (w n : Nat) : ∀ outs : List Int,
    (∃ o ∈ outs, ∃ msg, C.decompose o w n = .error msg) →
    ∃ msg, decomposeOutputs C w n outs = .error (.decompose msg)
  | [], h => by simp at h
  | o :: rest, h => by
    cases hd : C.decompose o w n with
    | error msg => exact ⟨msg, by simp only [decomposeOutputs, hd]⟩
    | ok limbs =>
      have hr : ∃ x ∈ rest, ∃ msg, C.decompose x w n = .error msg := by
        obtain ⟨x, hx, msg, hmsg⟩ := h
        rcases List.mem_cons.mp hx with rfl | hx
        · rw [hd] at hmsg; cases hmsg
        · exact ⟨x, hx, msg, hmsg⟩
      obtain ⟨msg, hmsg⟩ := decomposeOutputs_too_large C w n rest hr
      exact ⟨msg, by simp only [decomposeOutputs, hd, hmsg]⟩

theorem decomposeOutputs_ok (C : Composition) (w n : Nat) : ∀ (outs out : List Int),
    decomposeOutputs C w n outs = .ok out →
    ∀ o ∈ outs, ∃ limbs, C.decompose o w n = .ok limbs
  | [], _, _ => by simp
  | o :: rest, out, h => by
    simp only [decomposeOutputs] at h
    cases hd : C.decompose o w n with
    | error msg => rw [hd] at h; cases h
    | ok limbs =>
      rw [hd] at h
      cases hr : decomposeOutputs C w n rest with
      | error e => rw [hr] at h; cases h
      | ok more =>
        intro x hx
        rcases List.mem_cons.mp hx with rfl | hx
        · exact ⟨limbs, hd⟩
        · exact decomposeOutputs_ok C w n rest more hr x hx

theorem expandInputs_fst : ∀ (inputs acc : List Variable),
    (expandInputs acc inputs).1 = acc ++ inputs.flatMap operandExpansion
  | [], acc => by simp [expandInputs]
  | v :: rest, acc => by
    cases v <;>
      simp [expandInputs, operandExpansion, expandInputs_fst rest, List.flatMap_cons]

theorem recomposeInputs_expand (val : Variable → Int) (w : Nat) :
    ∀ (inputs acc suffix : List Variable),
      recomposeInputs specComposition w
          ((acc ++ inputs.flatMap operandExpansion ++ suffix).map val)
          (expandInputs acc inputs).2 =
        .ok (inputs.map (operandValue val w))
  | [], acc, suffix => by simp [expandInputs, recomposeInputs]
  | v :: rest, acc, suffix => by
    have helem : ∀ vv : Element,
        recomposeInputs specComposition w
          ((acc ++ (vv.Limbs.map Variable.native ++ rest.flatMap operandExpansion)
            ++ suffix).map val)
          (⟨(acc ++ vv.Limbs.map Variable.native).length - vv.Limbs.length,
              vv.Limbs.length, true⟩ ::
            (expandInputs (acc ++ vv.Limbs.map Variable.native) rest).2) =
        .ok (limbsSum (vv.Limbs.map (fun l => val (.native l))) w ::
          rest.map (operandValue val w)) := by
      intro vv
      have ih := recomposeInputs_expand val w rest (acc ++ vv.Limbs.map Variable.native) suffix
      have hassoc : acc ++ (vv.Limbs.map Variable.native ++ rest.flatMap operandExpansion)
          ++ suffix =
          (acc ++ vv.Limbs.map Variable.native) ++ rest.flatMap operandExpansion ++ suffix := by
        simp [List.append_assoc]
      rw [hassoc, recomposeInputs]
      have hpos : (acc ++ vv.Limbs.map Variable.native).length - vv.Limbs.length
          = acc.length := by simp
      have hbound : acc.length + vv.Limbs.length ≤
          (List.map val ((acc ++ vv.Limbs.map Variable.native) ++
            rest.flatMap operandExpansion ++ suffix)).length := by
        simp only [List.length_map, List.length_append]
        omega
      have hslice : ((List.map val ((acc ++ vv.Limbs.map Variable.native) ++
            rest.flatMap operandExpansion ++ suffix)).drop acc.length).take vv.Limbs.length
          = vv.Limbs.map (fun l => val (.native l)) := by
        have h1 : List.map val ((acc ++ vv.Limbs.map Variable.native) ++
            rest.flatMap operandExpansion ++ suffix) =
            acc.map val ++ (vv.Limbs.map (fun l => val (.native l)) ++
              (rest.flatMap operandExpansion ++ suffix).map val) := by
          simp [List.map_append, List.append_assoc, Function.comp_def]
        rw [h1, List.drop_left' (by simp), List.take_left' (by simp)]
      simp only [hpos, hbound, hslice, if_true, specComposition, recompose]
      simp only [specComposition] at ih
      rw [ih]
    have hother : ∀ x : Variable,
        recomposeInputs specComposition w
          ((acc ++ ([x] ++ rest.flatMap operandExpansion) ++ suffix).map val)
          (⟨(acc ++ [x]).length - 1, 1, false⟩ :: (expandInputs (acc ++ [x]) rest).2) =
        .ok (val x :: rest.map (operandValue val w)) := by
      intro x
      have ih := recomposeInputs_expand val w rest (acc ++ [x]) suffix
      have hassoc : acc ++ ([x] ++ rest.flatMap operandExpansion) ++ suffix =
          (acc ++ [x]) ++ rest.flatMap operandExpansion ++ suffix := by
        simp [List.append_assoc]
      rw [hassoc, recomposeInputs]
      have hpos : (acc ++ [x]).length - 1 = acc.length := by simp
      have hget : (List.map val ((acc ++ [x]) ++ rest.flatMap operandExpansion ++
          suffix)).get? acc.length = some (val x) := by
        have h1 : List.map val ((acc ++ [x]) ++ rest.flatMap operandExpansion ++ suffix) =
            acc.map val ++ (val x :: (rest.flatMap operandExpansion ++ suffix).map val) := by
          simp [List.map_append, List.append_assoc]
        rw [h1, List.get?_eq_getElem?, List.getElem?_append_right (by simp)]
        simp
      simp only [hpos, hget]
      rw [ih]
      simp
    cases v
    case element vv =>
      simpa [expandInputs, operandExpansion, operandValue, List.flatMap_cons] using helem vv
    case elementPtr vv =>
      simpa [expandInputs, operandExpansion, operandValue, List.flatMap_cons] using helem vv
    case nil =>
      simpa [expandInputs, operandExpansion, operandValue, List.flatMap_cons] using
        hother .nil
    case bigIntPtr c =>
      simpa [expandInputs, operandExpansion, operandValue, List.flatMap_cons] using
        hother (.bigIntPtr c)
    case bigInt c =>
      simpa [expandInputs, operandExpansion, operandValue, List.flatMap_cons] using
        hother (.bigInt c)
    case int c =>
      simpa [expandInputs, operandExpansion, operandValue, List.flatMap_cons] using
        hother (.int c)
    case slice vs =>
      simpa [expandInputs, operandExpansion, operandValue, List.flatMap_cons] using
        hother (.slice vs)
    case native l =>
      simpa [expandInputs, operandExpansion, operandValue, List.flatMap_cons] using
        hother (.native l)
    case other t =>
      simpa [expandInputs, operandExpansion, operandValue, List.flatMap_cons] using
        hother (.other t)

theorem recomposeInputs_fails (C : Composition) (w : Nat) (ins : List Int) (ti : typedInput)
    (post : List typedInput) (msg : String)
    (hel : ti.isElement = true) (hb : ti.pos + ti.nbLimbs ≤ ins.length)
    (hfail : C.recompose (inputBlock ins ti) w = .error msg) :
    ∀ (pre : List typedInput) (vs : List Int), recomposeInputs C w ins pre = .ok vs →
      recomposeInputs C w ins (pre ++ ti :: post) = .error (.recompose msg)
  | [], _, _ => by
    unfold inputBlock at hfail
    simp only [List.nil_append, recomposeInputs, hel, hb, if_true, hfail]
  | t :: pre, vs, h => by
    rw [List.cons_append, recomposeInputs]
    rw [recomposeInputs] at h
    have key : ∀ us, recomposeInputs C w ins pre = .ok us →
        recomposeInputs C w ins (pre ++ ti :: post) = .error (.recompose msg) :=
      fun us hp => recomposeInputs_fails C w ins ti post msg hel hb hfail pre us hp
    cases hp : recomposeInputs C w ins pre with
    | error e =>
      rw [hp] at h
      by_cases ht : t.isElement = true
      · simp only [ht, if_true] at h
        by_cases hbt : t.pos + t.nbLimbs ≤ ins.length
        · simp only [hbt, if_true] at h
          cases hr : C.recompose (List.take t.nbLimbs (List.drop t.pos ins)) w with
          | error m => rw [hr] at h; cases h
          | ok v => rw [hr] at h; cases h
        · simp only [hbt, if_false] at h
          cases h
      · have ht2 : t.isElement = false := by simpa using ht
        simp only [ht2, Bool.false_eq_true, if_false] at h
        cases hg : ins.get? t.pos with
        | none => rw [hg] at h; cases h
        | some v => rw [hg] at h; cases h
    | ok us =>
      rw [key us hp]
      rw [hp] at h
      by_cases ht : t.isElement = true
      · simp only [ht, if_true] at h ⊢
        by_cases hbt : t.pos + t.nbLimbs ≤ ins.length
        · simp only [hbt, if_true] at h ⊢
          cases hr : C.recompose (List.take t.nbLimbs (List.drop t.pos ins)) w with
          | error m => rw [hr] at h; cases h
          | ok v => rfl
        · simp only [hbt, if_false] at h
          cases h
      · have ht2 : t.isElement = false := by simpa using ht
        simp only [ht2, Bool.false_eq_true, if_false] at h ⊢
        cases hg : ins.get? t.pos with
        | none => rw [hg] at h; cases h
        | some v => rfl

theorem recomposeInputs_ok (C : Composition) (w : Nat) (ins : List Int) :
    ∀ (tis : List typedInput) (vs : List Int), recomposeInputs C w ins tis = .ok vs →
      ∀ ti ∈ tis, ti.isElement = true → ∃ v, C.recompose (inputBlock ins ti) w = .ok v
  | [], _, _ => by simp
  | t :: tis, vs, h => by
    rw [recomposeInputs] at h
    intro ti hti hel
    cases hp : recomposeInputs C w ins tis with
    | error e =>
      rw [hp] at h
      by_cases ht : t.isElement = true
      · simp only [ht, if_true] at h
        by_cases hbt : t.pos + t.nbLimbs ≤ ins.length
        · simp only [hbt, if_true] at h
          cases hr : C.recompose (List.take t.nbLimbs (List.drop t.pos ins)) w with
          | error m => rw [hr] at h; cases h
          | ok v => rw [hr] at h; cases h
        · simp only [hbt, if_false] at h
          cases h
      · have ht2 : t.isElement = false := by simpa using ht
        simp only [ht2, Bool.false_eq_true, if_false] at h
        cases hg : ins.get? t.pos with
        | none => rw [hg] at h; cases h
        | some v => rw [hg] at h; cases h
    | ok us =>
      rw [hp] at h
      rcases List.mem_cons.mp hti with rfl | hti
      · simp only [hel, if_true] at h
        by_cases hbt : ti.pos + ti.nbLimbs ≤ ins.length
        · simp only [hbt, if_true] at h
          cases hr : C.recompose (List.take ti.nbLimbs (List.drop ti.pos ins)) w with
          | error m => rw [hr] at h; cases h
          | ok v => exact ⟨v, hr⟩
        · simp only [hbt, if_false] at h
          cases h
      · exact recomposeInputs_ok C w ins tis us hp ti hti hel

theorem mem_hintOutputs (M : Nat) (outs : List Int) (o : Int) :
    o ∈ hintOutputs M outs ↔ ∃ i < M, outs.getD i 0 = o := by
  simp [hintOutputs]

/-- C2, refuted at a concrete input: the hint `(x, y) → x - y` wrapped for two Elements
whose limbs (4 bits each) hold 5 and 17 is invoked once on `[5, 17]` and succeeds with
the output -12, which fits in `nbLimbs*limbBits = 8` bits (its bit length is 4); the
wrapped hint succeeds with the expanded outputs `[4, 15]`, and this block recomposes
to 244, not to the output of the hint. -/
theorem hint_bridge_negative_output :
    subHint [5, 17] = .ok [-12] ∧
    bitLen (-12 : Int).natAbs ≤ sampleParams.nbLimbs * sampleParams.nbBits ∧
    wrappedHint specComposition sampleParams subHint 1
        (expandInputs [] [.element (sampleElement 3), .elementPtr (sampleElement 1)]).2
        ((expandInputs [] [.element (sampleElement 3), .elementPtr (sampleElement 1)]).1.map
          sampleValues) = ⟨.ok [4, 15], [[5, 17]]⟩ ∧
    limbsSum (([4, 15] : List Int).drop (0 * sampleParams.nbLimbs) |>.take
      sampleParams.nbLimbs) sampleParams.nbBits = 244 ∧
    limbsSum (([4, 15] : List Int).drop (0 * sampleParams.nbLimbs) |>.take
      sampleParams.nbLimbs) sampleParams.nbBits ≠ -12 := by
  refine ⟨rfl, by decide, rfl, rfl, by decide⟩

/-- C2, as amended: with the helpers as the spec describes them, the wrapped hint
built by `NewHint` for the operands `inputs`, run on the values of the expanded inputs
(the concatenation, in operand order, of the limbs of each Element and of each other
operand itself), invokes `hf` exactly once, on the inputs whose `i`-th is the
recomposition of the limbs of operand `i` (or the value of the operand itself); if
`hf` succeeds there with outputs that are each non-negative and fit in
`nbLimbs*limbBits` bits, the wrapped hint succeeds with `M*nbLimbs` expanded outputs
and, for every `i < M`, the block `[i*nbLimbs, (i+1)*nbLimbs)` recomposes to output
`i` of `hf`. -/
theorem hint_bridge_round_trip (p : Params) (hf : HintFunction) (M : Nat)
    (inputs : List Variable) (val : Variable → Int) (outs : List Int)
    (hhf : hf (inputs.map (operandValue val p.nbBits)) = .ok outs)
    (hfit : ∀ i < M, 0 ≤ outs.getD i 0 ∧
      bitLen (outs.getD i 0).natAbs ≤ p.nbLimbs * p.nbBits) :
    (expandInputs [] inputs).1 = inputs.flatMap operandExpansion ∧
    ∃ out : List Int,
      wrappedHint specComposition p hf M (expandInputs [] inputs).2
          ((expandInputs [] inputs).1.map val) =
        ⟨.ok out, [inputs.map (operandValue val p.nbBits)]⟩ ∧
      out.length = M * p.nbLimbs ∧
      ∀ i < M,
        limbsSum ((out.drop (i * p.nbLimbs)).take p.nbLimbs) p.nbBits = outs.getD i 0 := by
  have hfst : (expandInputs [] inputs).1 = inputs.flatMap operandExpansion := by
    rw [expandInputs_fst]; rfl
  have hrec := recomposeInputs_expand val p.nbBits inputs [] []
  simp only [List.nil_append, List.append_nil] at hrec
  have hall : ∀ o ∈ hintOutputs M outs, 0 ≤ o ∧ bitLen o.natAbs ≤ p.nbLimbs * p.nbBits := by
    intro o ho
    obtain ⟨i, hi, rfl⟩ := (mem_hintOutputs M outs o).mp ho
    exact hfit i hi
  obtain ⟨out, hout, hlen, hblocks⟩ :=
    decomposeOutputs_fits p.nbBits p.nbLimbs (hintOutputs M outs) hall
  have hM : (hintOutputs M outs).length = M := by simp [hintOutputs]
  refine ⟨hfst, out, ?_, ?_, ?_⟩
  · simp only [wrappedHint, hfst, hrec, hhf, hout]
  · rw [hlen, hM]
  · intro i hi
    rw [hblocks i (by rw [hM]; exact hi)]
    simp [hintOutputs]

/-- C2 as amended, at the concrete input of the claim: the hint
`(x, y) → (x/y, x mod y)` wrapped for two Elements whose limbs (4 bits each) hold 17
and 5 is invoked once on `[17, 5]` and its two output blocks decode to 3 and 2. -/
theorem hint_bridge_round_trip_witness :
    ∃ out : List Int,
      wrappedHint specComposition sampleParams divModHint 2
          (expandInputs [] [.element (sampleElement 1), .elementPtr (sampleElement 3)]).2
          [1, 1, 5, 0] = ⟨.ok out, [[17, 5]]⟩ ∧
      out.length = 4 ∧
      limbsSum ((out.drop 0).take 2) 4 = 3 ∧
      limbsSum ((out.drop 2).take 2) 4 = 2 := by
  obtain ⟨-, out, h1, h2, h3⟩ := hint_bridge_round_trip sampleParams divModHint 2
    [.element (sampleElement 1), .elementPtr (sampleElement 3)] sampleValues [3, 2]
    rfl (by decide)
  exact ⟨out, h1, h2, h3 0 (by decide), h3 1 (by decide)⟩

/-- C3: for every hint function on signed big integers, every typed-input table and
every expanded input vector, whatever the helpers `recompose` and `decompose` are:
once the inputs are recomposed and `hf` has returned its outputs, the wrapped hint
returns a `decompose` error (and no expanded output) whenever `decompose` fails on
some output, which with `decompose` as the spec describes it is whenever some output,
of either sign, needs more than `nbLimbs*limbBits` bits; it returns a `call hint`
error whenever `hf` returns an error; it returns a `recompose` error, without invoking
`hf`, whenever `recompose` fails on the block of an Element input; and it returns
success only if every Element input was recomposed, `hf` was invoked (once) and
succeeded, and every output was decomposed. -/
theorem wrapped_hint_errors (C : Composition) (p : Params) (hf : HintFunction) (M : Nat)
    (tis : List typedInput) (ins : List Int) :
    (∀ hin outs, recomposeInputs C p.nbBits ins tis = .ok hin → hf hin = .ok outs →
      (∃ o ∈ hintOutputs M outs, ∃ msg, C.decompose o p.nbBits p.nbLimbs = .error msg) →
      ∃ msg, wrappedHint C p hf M tis ins = ⟨.error (.decompose msg), [hin]⟩) ∧
    (∀ hin outs, recomposeInputs specComposition p.nbBits ins tis = .ok hin →
      hf hin = .ok outs →
      (∃ i < M, p.nbLimbs * p.nbBits < bitLen (outs.getD i 0).natAbs) →
      ∃ msg, wrappedHint specComposition p hf M tis ins = ⟨.error (.decompose msg), [hin]⟩) ∧
    (∀ hin msg, recomposeInputs C p.nbBits ins tis = .ok hin → hf hin = .error msg →
      wrappedHint C p hf M tis ins = ⟨.error (.callHint msg), [hin]⟩) ∧
    (∀ pre ti post vs msg, tis = pre ++ ti :: post →
      recomposeInputs C p.nbBits ins pre = .ok vs →
      ti.isElement = true → ti.pos + ti.nbLimbs ≤ ins.length →
      C.recompose (inputBlock ins ti) p.nbBits = .error msg →
      wrappedHint C p hf M tis ins = ⟨.error (.recompose msg), []⟩) ∧
    (∀ out, (wrappedHint C p hf M tis ins).result = .ok out →
      ∃ hin outs, recomposeInputs C p.nbBits ins tis = .ok hin ∧
        (∀ ti ∈ tis, ti.isElement = true →
          ∃ v, C.recompose (inputBlock ins ti) p.nbBits = .ok v) ∧
        hf hin = .ok outs ∧
        (wrappedHint C p hf M tis ins).invocations = [hin] ∧
        (∀ o ∈ hintOutputs M outs, ∃ limbs, C.decompose o p.nbBits p.nbLimbs = .ok limbs) ∧
        decomposeOutputs C p.nbBits p.nbLimbs (hintOutputs M outs) = .ok out) := by
  refine ⟨?_, ?_, ?_, ?_, ?_⟩
  · intro hin outs hrec hhf hbad
    obtain ⟨msg, hmsg⟩ := decomposeOutputs_too_large C p.nbBits p.nbLimbs _ hbad
    exact ⟨msg, by simp only [wrappedHint, hrec, hhf, hmsg]⟩
  · intro hin outs hrec hhf hbad
    obtain ⟨i, hi, hbig⟩ := hbad
    have hbad2 : ∃ o ∈ hintOutputs M outs, ∃ msg,
        specComposition.decompose o p.nbBits p.nbLimbs = .error msg :=
      ⟨outs.getD i 0, (mem_hintOutputs M outs _).mpr ⟨i, hi, rfl⟩, _,
        decompose_too_large _ _ _ hbig⟩
    obtain ⟨msg, hmsg⟩ := decomposeOutputs_too_large specComposition p.nbBits p.nbLimbs _ hbad2
    exact ⟨msg, by simp only [wrappedHint, hrec, hhf, hmsg]⟩
  · intro hin msg hrec hhf
    simp only [wrappedHint, hrec, hhf]
  · intro pre ti post vs msg htis hpre hel hb hfail
    subst htis
    simp only [wrappedHint, recomposeInputs_fails C p.nbBits ins ti post msg hel hb hfail pre vs hpre]
  · intro out hout
    unfold wrappedHint at hout ⊢
    cases hrec : recomposeInputs C p.nbBits ins tis with
    | error e => rw [hrec] at hout; cases hout
    | ok hin =>
      rw [hrec] at hout
      simp only at hout ⊢
      cases hhf : hf hin with
      | error msg => rw [hhf] at hout; cases hout
      | ok outs =>
        rw [hhf] at hout
        simp only at hout ⊢
        exact ⟨hin, outs, rfl, recomposeInputs_ok C p.nbBits ins tis hin hrec, hhf, rfl,
          decomposeOutputs_ok C p.nbBits p.nbLimbs _ out hout, hout⟩

/-- C3, at concrete inputs: the hint `(x, y) → x*y` wrapped for two Elements of 2 limbs
of 4 bits holding 17 and 18 produces 306, which needs 9 bits, and the hint
`(x, y) → x - y` on Elements holding 1 and 290 produces -289, which needs 9 bits too:
in both runs the wrapped hint returns a `decompose` error after its one invocation of
the hint. -/
theorem wrapped_hint_errors_witness :
    (∃ msg, wrappedHint specComposition sampleParams mulHint 1
        (expandInputs [] [.element (sampleElement 1), .elementPtr (sampleElement 3)]).2
        [1, 1, 2, 1] = ⟨.error (.decompose msg), [[17, 18]]⟩) ∧
    (∃ msg, wrappedHint specComposition sampleParams subHint 1
        (expandInputs [] [.element (sampleElement 1),
          .elementPtr ⟨[.wire 3, .wire 4, .wire 5], 0, sampleParams⟩]).2
        [1, 0, 2, 2, 1] = ⟨.error (.decompose msg), [[1, 290]]⟩) :=
  ⟨(wrapped_hint_errors specComposition sampleParams mulHint 1
      (expandInputs [] [.element (sampleElement 1), .elementPtr (sampleElement 3)]).2
      [1, 1, 2, 1]).2.1 [17, 18] [306] rfl rfl ⟨0, by decide, by decide⟩,
   (wrapped_hint_errors specComposition sampleParams subHint 1
      (expandInputs [] [.element (sampleElement 1),
        .elementPtr ⟨[.wire 3, .wire 4, .wire 5], 0, sampleParams⟩]).2
      [1, 0, 2, 2, 1]).2.1 [1, 290] [-289] rfl (by decide) ⟨0, by decide, by decide⟩⟩

end Nonnative
